import Mathlib

set_option maxRecDepth 100000

/-!
Verification development for the nfai-web-scraper repository.

The Python sources are shallowly embedded as executable Lean definitions:
strings are Lean `String`/`List Char`, Python `int` is `ℤ`, Python's exact
real arithmetic is idealised as `ℚ`, and where IEEE binary64 rounding is
itself the object of study a separate explicit round-to-nearest-even model
over integer fractions is used.  Fallible operations return `Option`.
-/

/-! ## Python string primitives (ASCII fragment used by the repository) -/

/-- Whitespace characters recognised by Python's default str.strip. -/
def pyIsSpace (c : Char) : Bool :=
  c = ' ' || c = '\t' || c = '\n' || c = '\x0d' || c = '\x0b' || c = '\x0c'

/-- Python str.strip on a character list: drop whitespace from both ends. -/
def pyStripL (s : List Char) : List Char :=
  ((s.dropWhile pyIsSpace).reverse.dropWhile pyIsSpace).reverse

/-- Python str.strip. -/
def pyStrip (s : String) : String :=
  String.mk (pyStripL s.data)

/-- Split off everything before the first occurrence of the separator;
returns none when the separator does not occur. -/
def splitOnceL (sep : Char) : List Char → Option (List Char × List Char)
  | [] => none
  | c :: cs =>
    if c = sep then some ([], cs)
    else (splitOnceL sep cs).map (fun p => (c :: p.1, p.2))

/-- Second stage of split(sep, 2): one more split of the remainder. -/
def split2Rest (sep : Char) (a rest : List Char) : List (List Char) :=
  match splitOnceL sep rest with
  | none => [a, rest]
  | some (b, rest2) => [a, b, rest2]

/-- Python str.split(sep, 2): at most the first two separator occurrences
are significant, so the result has between one and three fields. -/
def pySplit2L (sep : Char) (s : List Char) : List (List Char) :=
  match splitOnceL sep s with
  | none => [s]
  | some (a, rest) => split2Rest sep a rest

/-- Python str.split(sep) with no maxsplit (empty pieces are kept). -/
def splitAllL (sep : Char) : List Char → List (List Char)
  | [] => [[]]
  | c :: cs =>
    if c = sep then [] :: splitAllL sep cs
    else
      match splitAllL sep cs with
      | [] => [[c]]
      | h :: t => (c :: h) :: t

/-- Python str.splitlines restricted to the \n terminator: like a plain
split on \n except that the empty input gives no lines and a trailing
terminator does not produce a final empty line. -/
def pySplitlinesL (s : List Char) : List (List Char) :=
  if s = [] then []
  else if s.getLast? = some '\n' then (splitAllL '\n' s).dropLast
  else splitAllL '\n' s

/-- Join character-list lines with the \n separator (str.join). -/
def joinNL : List (List Char) → List Char
  | [] => []
  | [l] => l
  | l :: ls => l ++ '\n' :: joinNL ls

/-- Python str.lower on one character (ASCII range, as used by the CLI). -/
def pyLowerChar (c : Char) : Char :=
  if 'A' ≤ c && c ≤ 'Z' then Char.ofNat (c.toNat + 32) else c

/-- Python str.lower. -/
def pyLower (s : String) : String :=
  String.mk (s.data.map pyLowerChar)

/-! ## Decimal numerals

Rendering of integers and parsing of decimal numerals, used by the
formatters' timestamp handling. -/

/-- Decimal digit character for n (n is taken mod 10). -/
def digitChar (n : ℕ) : Char := Char.ofNat (48 + n % 10)

/-- Fuel-driven digit accumulator (fuel bounds the number of digits, so
the recursion is structural and computable inside the kernel). -/
def natDigitsAux : ℕ → ℕ → List Char
  | 0, _ => []
  | fuel + 1, n =>
    if n < 10 then [digitChar n]
    else natDigitsAux fuel (n / 10) ++ [digitChar (n % 10)]

/-- Full decimal digit list of a natural number, most significant first. -/
def natDigits (n : ℕ) : List Char :=
  natDigitsAux (n + 1) n

/-- Decimal rendering of an integer, with a leading minus sign if negative. -/
def intDigits (i : ℤ) : List Char :=
  if i < 0 then '-' :: natDigits i.natAbs else natDigits i.natAbs

/-- Numeric value of a decimal digit list (most significant first). -/
def digitsVal (ds : List Char) : ℕ :=
  ds.foldl (fun a c => a * 10 + (c.toNat - 48)) 0

/-- Leading sign of a numeral: strips one '+' or '-' and reports the sign
factor. -/
def parseSign (l : List Char) : ℤ × List Char :=
  match l with
  | [] => (1, [])
  | c :: r => if c = '-' then (-1, r) else if c = '+' then (1, r) else (1, c :: r)

/-- Fraction part of a numeral: consumes '.digits' when present. -/
def parseFrac (l : List Char) : List Char × List Char :=
  match l with
  | c :: r => if c = '.' then (r.takeWhile Char.isDigit, r.dropWhile Char.isDigit) else ([], c :: r)
  | [] => ([], [])

/-- Python float(str) restricted to plain decimal/scientific numerals and
idealised to the exact decimal value: the result (m, e) denotes m / 10 ^ e
with e possibly negative, and inputs outside this finite grammar give
none.  This idealisation serves the exact-value round-trip analyses; it
omits float()'s inf/nan spellings, PEP-515 underscores and the
overflow-to-infinity behaviour, which parseFloatFull below embeds in
full together with the resulting uncaught OverflowError path. -/
def parseFloatDec (s : List Char) : Option (ℤ × ℤ) :=
  let t := pyStripL s
  let sgn := (parseSign t).1
  let t1 := (parseSign t).2
  let ip := t1.takeWhile Char.isDigit
  let r1 := t1.dropWhile Char.isDigit
  let fp := (parseFrac r1).1
  let r2 := (parseFrac r1).2
  if ip.length + fp.length = 0 then none
  else
    let mant : ℤ := sgn * (digitsVal (ip ++ fp) : ℤ)
    match r2 with
    | [] => some (mant, (fp.length : ℤ))
    | e :: r3 =>
      if e = 'e' || e = 'E' then
        let esgn := (parseSign r3).1
        let r4 := (parseSign r3).2
        let ed := r4.takeWhile Char.isDigit
        if ed = [] ∨ r4.dropWhile Char.isDigit ≠ [] then none
        else some (mant, (fp.length : ℤ) - esgn * (digitsVal ed : ℤ))
      else none

/-! ## Formatters (src/utils/formatters.py) -/

/-- Time unit configured on a formatter: 'ms', 's' or 'min'. -/
inductive TimeUnit where
  | ms
  | s
  | minu
deriving DecidableEq

/-- Conversion factor table of BaseFormatter._conversion_factors. -/
def unitFactor : TimeUnit → ℕ
  | .ms => 1
  | .s => 1000
  | .minu => 60000

/-- Key suffix used for the JSON timestamp field (the unit's name). -/
def unitName : TimeUnit → List Char
  | .ms => "ms".data
  | .s => "s".data
  | .minu => "min".data

/-- BaseFormatter._parse_time: int(float(value) * factor), with the exact
decimal idealisation of float(value); any parse failure yields 0 (the
except branch returns 0 rather than raising) and int() truncates toward 0.
Like parseFloatDec this is total, collapsing the infinity inputs on which
the real method raises an uncaught OverflowError; _parse_timeE below keeps
that error path explicit. -/
def _parse_time (u : TimeUnit) (s : List Char) : ℤ :=
  match parseFloatDec s with
  | none => 0
  | some (m, e) =>
    if e ≤ 0 then m * (unitFactor u : ℤ) * 10 ^ (-e).toNat
    else Int.tdiv (m * (unitFactor u : ℤ)) (10 ^ e.toNat)

/-- Exact decimal rendering of a / 10 ^ k in Python float repr style:
optional sign, integer part, then a fractional part with trailing zeros
trimmed, or ".0" when the value is integral. -/
def renderDec (a : ℤ) (k : ℕ) : List Char :=
  let n := a.natAbs
  let ip := natDigits (n / 10 ^ k)
  let frac := (List.replicate (k - (natDigits (n % 10 ^ k)).length) '0'
      ++ natDigits (n % 10 ^ k)).reverse.dropWhile (· = '0') |>.reverse
  let body := if frac = [] then ip ++ ".0".data else ip ++ '.' :: frac
  if a < 0 then '-' :: body else body

/-- BaseFormatter._convert_time composed with Python's float repr: the
string form of ms / factor.  The value is rendered as its exact decimal
expansion, which agrees with repr of the IEEE double on the short decimal
values the formatter produces; for the 'min' unit a value whose decimal
does not terminate (ms not divisible by 3) has no exact decimal and is
rendered through a fraction marker, a model artifact no theorem relies
on. -/
def renderTime (u : TimeUnit) (ms : ℤ) : List Char :=
  match u with
  | .ms => renderDec ms 0
  | .s => renderDec ms 3
  | .minu =>
    if ms % 3 = 0 then renderDec (ms / 3 * 5) 5
    else intDigits ms ++ '/' :: natDigits 60000

/-- One line of TextFormatter.format_output: blank lines and lines that do
not split into exactly 3 fields on ';' (maxsplit 2) are dropped; otherwise
the timestamp is re-parsed, converted and the line re-emitted. -/
def textLine (u : TimeUnit) (line : List Char) : Option (List Char) :=
  if pyStripL line = [] then none
  else
    match (pySplit2L ';' line).map pyStripL with
    | [t, sp, tr] => some (renderTime u (_parse_time u t) ++ ';' :: sp ++ ';' :: tr)
    | _ => none

/-- TextFormatter.format_output. -/
def textFormatOutput (u : TimeUnit) (text : String) : String :=
  String.mk (joinNL ((pySplitlinesL text.data).filterMap (textLine u)))

/-- One parsed entry of JsonFormatter.format_output: (converted timestamp
rendering, speaker, transcription); lines are split on the pipe. -/
def jsonEntry (u : TimeUnit) (line : List Char) :
    Option (List Char × List Char × List Char) :=
  if pyStripL line = [] then none
  else
    match (pySplit2L '|' line).map pyStripL with
    | [t, sp, tr] => some (renderTime u (_parse_time u t), sp, tr)
    | _ => none

/-- JsonFormatter.format_output's entry list. -/
def jsonEntries (u : TimeUnit) (text : String) :
    List (List Char × List Char × List Char) :=
  (pySplitlinesL text.data).filterMap (jsonEntry u)

/-- JSON string escaping of json.dumps with ensure_ascii=False: backslash,
quote and the common control characters. -/
def jsonEscChar (c : Char) : List Char :=
  if c = '"' then ['\\', '"']
  else if c = '\\' then ['\\', '\\']
  else if c = '\n' then ['\\', 'n']
  else if c = '\t' then ['\\', 't']
  else if c = '\x0d' then ['\\', 'r']
  else [c]

/-- JSON string literal for a field value. -/
def jsonStr (s : List Char) : List Char :=
  '"' :: (s.flatMap jsonEscChar) ++ ['"']

/-- One indented object block of json.dumps(..., indent=2) for a segment
entry (timestamp value is emitted bare, it is a float in the source). -/
def jsonBlock (u : TimeUnit) (e : List Char × List Char × List Char) : List Char :=
  "    \x7b\n      \"timestamp_".data ++ unitName u ++ "\": ".data ++ e.1
    ++ ",\n      \"speaker\": ".data ++ jsonStr e.2.1
    ++ ",\n      \"transcription\": ".data ++ jsonStr e.2.2
    ++ "\n    \x7d".data

/-- json.dumps of the segments object with indent=2. -/
def jsonDump (u : TimeUnit) (es : List (List Char × List Char × List Char)) :
    List Char :=
  match es with
  | [] => "\x7b\n  \"segments\": []\n\x7d".data
  | e :: rest =>
    let mid := (joinNL ((e :: rest).map (fun x => jsonBlock u x ++ [',']))).dropLast
    "\x7b\n  \"segments\": [\n".data ++ mid ++ "\n  ]\n\x7d".data

/-- JsonFormatter.format_output. -/
def jsonFormatOutput (u : TimeUnit) (text : String) : String :=
  String.mk (jsonDump u (jsonEntries u text))

/-! ## Faithful float() and _parse_time, with the error paths

The definitions above idealise float(value) to its finite decimal grammar,
which is enough for the exact-value round-trip analyses but folds Python's
inf/nan/underscore acceptance and the overflow-to-infinity behaviour into
the parse-failure branch.  The definitions below embed the full behaviour:
float(str) can return an infinity (literal 'inf'/'infinity' spellings or a
finite numeral whose value rounds beyond the largest binary64 double), and
int(inf * factor) then raises OverflowError, which neither _parse_time's
except (ValueError, TypeError) nor format_output's except
(ValueError, IndexError) catches — so format_output itself raises. -/

/-- Result of Python float(str): a finite exact decimal m / 10 ^ e, a
signed infinity, or a nan. -/
inductive PyFloat where
  | fin : ℤ → ℤ → PyFloat
  | inf : Bool → PyFloat
  | nan : PyFloat
deriving DecidableEq

/-- Characters allowed inside a float literal digit group: digits and the
PEP-515 underscore. -/
def floatDigit (c : Char) : Bool := c.isDigit || c = '_'

/-- Python's digitpart grammar digit (["_"] digit)*: nonempty, starts and
ends with a digit, underscores only singly and between digits. -/
def digitPartOk : List Char → Bool
  | [] => false
  | [c] => c.isDigit
  | c :: d :: r => c.isDigit && (if d = '_' then digitPartOk r else digitPartOk (d :: r))

/-- Fraction part with underscores: consumes '.digits' when present. -/
def parseFracU (l : List Char) : List Char × List Char :=
  match l with
  | c :: r => if c = '.' then (r.takeWhile floatDigit, r.dropWhile floatDigit) else ([], c :: r)
  | [] => ([], [])

/-- str.lower on a character list. -/
def pyLowerL (l : List Char) : List Char := l.map pyLowerChar

/-- Whether the exact decimal m / 10 ^ e rounds to infinity in binary64:
round-to-nearest-even overflows exactly when the magnitude reaches
2 ^ 1024 - 2 ^ 970, the midpoint above the largest finite double. -/
def overflowsF (m e : ℤ) : Bool :=
  if 0 ≤ e then (2 ^ 1024 - 2 ^ 970) * 10 ^ e.toNat ≤ m.natAbs
  else ((2 : ℕ) ^ 1024 - 2 ^ 970) ≤ m.natAbs * 10 ^ (-e).toNat

/-- Python float(str) with its full string grammar: optional sign, then
'inf'/'infinity'/'nan' case-insensitively, or a decimal/scientific numeral
with PEP-515 underscores; a finite numeral beyond the binary64 range gives
an infinity.  none models the ValueError raise. -/
def parseFloatFull (s : List Char) : Option PyFloat :=
  let t := pyStripL s
  let sgn := (parseSign t).1
  let t1 := (parseSign t).2
  if pyLowerL t1 = "inf".data ∨ pyLowerL t1 = "infinity".data then
    some (.inf (sgn < 0))
  else if pyLowerL t1 = "nan".data then some .nan
  else
    let ip := t1.takeWhile floatDigit
    let r1 := t1.dropWhile floatDigit
    let fp := (parseFracU r1).1
    let r2 := (parseFracU r1).2
    let ipd := ip.filter Char.isDigit
    let fpd := fp.filter Char.isDigit
    if ¬ (ip = [] ∨ digitPartOk ip = true) then none
    else if ¬ (fp = [] ∨ digitPartOk fp = true) then none
    else if ipd = [] ∧ fpd = [] then none
    else
      let mant : ℤ := sgn * (digitsVal (ipd ++ fpd) : ℤ)
      match r2 with
      | [] =>
        if overflowsF mant (fpd.length : ℤ) then some (.inf (sgn < 0))
        else some (.fin mant (fpd.length : ℤ))
      | e :: r3 =>
        if e = 'e' ∨ e = 'E' then
          let esgn := (parseSign r3).1
          let r4 := (parseSign r3).2
          let ed := r4.takeWhile floatDigit
          if ¬ (digitPartOk ed = true) ∨ r4.dropWhile floatDigit ≠ [] then none
          else
            let ex : ℤ := (fpd.length : ℤ) - esgn * (digitsVal (ed.filter Char.isDigit) : ℤ)
            if overflowsF mant ex then some (.inf (sgn < 0))
            else some (.fin mant ex)
        else none

/-- Decidable equality of Except values, so that concrete runs of the
fallible embedding can be checked by evaluation. -/
instance exceptDecEq {α β : Type} [DecidableEq α] [DecidableEq β] :
    DecidableEq (Except α β) := fun x y =>
  match x, y with
  | .error a, .error b =>
    if h : a = b then .isTrue (by rw [h])
    else .isFalse (by intro he; cases he; exact h rfl)
  | .ok a, .ok b =>
    if h : a = b then .isTrue (by rw [h])
    else .isFalse (by intro he; cases he; exact h rfl)
  | .error _, .ok _ => .isFalse (by intro he; cases he)
  | .ok _, .error _ => .isFalse (by intro he; cases he)

/-- BaseFormatter._parse_time with the error path: int(float(value) *
factor).  A float() ValueError gives 0 (caught), int(nan) raises a caught
ValueError giving 0, but int(±inf * factor) raises OverflowError, which
except (ValueError, TypeError) does not catch — modelled as .error. -/
def _parse_timeE (u : TimeUnit) (s : List Char) : Except Unit ℤ :=
  match parseFloatFull s with
  | none => .ok 0
  | some .nan => .ok 0
  | some (.inf _) => .error ()
  | some (.fin m e) =>
    .ok (if e ≤ 0 then m * (unitFactor u : ℤ) * 10 ^ (-e).toNat
      else Int.tdiv (m * (unitFactor u : ℤ)) (10 ^ e.toNat))

/-- One TextFormatter.format_output loop iteration with the error path:
blank lines and wrong field counts are dropped by except (ValueError,
IndexError); an OverflowError from _parse_time propagates. -/
def textLineE (u : TimeUnit) (line : List Char) : Except Unit (Option (List Char)) :=
  if pyStripL line = [] then .ok none
  else
    match (pySplit2L ';' line).map pyStripL with
    | [t, sp, tr] =>
      match _parse_timeE u t with
      | .error e => .error e
      | .ok ms => .ok (some (renderTime u ms ++ ';' :: sp ++ ';' :: tr))
    | _ => .ok none

/-- One JsonFormatter.format_output loop iteration with the error path. -/
def jsonEntryE (u : TimeUnit) (line : List Char) :
    Except Unit (Option (List Char × List Char × List Char)) :=
  if pyStripL line = [] then .ok none
  else
    match (pySplit2L '|' line).map pyStripL with
    | [t, sp, tr] =>
      match _parse_timeE u t with
      | .error e => .error e
      | .ok ms => .ok (some (renderTime u ms, sp, tr))
    | _ => .ok none

/-- TextFormatter.format_output's loop over all lines: the first
OverflowError aborts the whole call. -/
def textLinesE (u : TimeUnit) : List (List Char) → Except Unit (List (List Char))
  | [] => .ok []
  | l :: ls =>
    match textLineE u l with
    | .error e => .error e
    | .ok none => textLinesE u ls
    | .ok (some o) =>
      match textLinesE u ls with
      | .error e => .error e
      | .ok os => .ok (o :: os)

/-- TextFormatter.format_output with the error path: either the joined
output lines or the uncaught OverflowError. -/
def textFormatOutputE (u : TimeUnit) (text : String) : Except Unit String :=
  match textLinesE u (pySplitlinesL text.data) with
  | .error e => .error e
  | .ok outs => .ok (String.mk (joinNL outs))

/-- The two formatter variants defined in src/utils/formatters.py. -/
inductive FormatterKind where
  | text
  | json
deriving DecidableEq

/-- Methods defined (directly or by inheritance from BaseFormatter) on each
formatter class, transcribed from src/utils/formatters.py. -/
def formatterMethods : FormatterKind → List String
  | .text => ["__init__", "_convert_time", "_parse_time", "get_prompt", "format_output"]
  | .json => ["__init__", "_convert_time", "_parse_time", "get_prompt", "format_output"]

/-- Python attribute lookup for a method on a formatter instance. -/
def hasMethod (k : FormatterKind) (name : String) : Bool :=
  (formatterMethods k).contains name

/-- get_formatter: a dict from 'txt'/'json' to the two formatter instances,
looked up by the lowercased format_type with TextFormatter as default. -/
def get_formatter (format_type : String) (time_unit : TimeUnit) :
    FormatterKind × TimeUnit :=
  if pyLower format_type = "txt" then (.text, time_unit)
  else if pyLower format_type = "json" then (.json, time_unit)
  else (.text, time_unit)

/-- AudioTranscriber.transcribe's parse step, self.formatter.parse_transcription(result):
attribute lookup on the formatter followed by the call.  No formatter class
defines parse_transcription, so the lookup branch that would run a method
body is dead; a failed lookup raises AttributeError. -/
def transcribeParseStep (k : FormatterKind) (raw : String) :
    Except String (List (List Char × List Char × List Char)) :=
  if hasMethod k "parse_transcription" then .ok []
  else .error "AttributeError: parse_transcription"

/-! ## Exact conversion model (BaseFormatter, idealised arithmetic) -/

/-- Python int() applied to a numeric value: truncation toward zero. -/
def pyTruncQ (q : ℚ) : ℤ := if q < 0 then ⌈q⌉ else ⌊q⌋

/-- BaseFormatter._convert_time, ms / factor, idealised to exact division. -/
def _convert_time (u : TimeUnit) (ms : ℤ) : ℚ :=
  (ms : ℚ) / (unitFactor u : ℚ)

/-- BaseFormatter._parse_time applied directly to an already numeric value
(float(value) is the identity there): int(value * factor), exact model. -/
def parseTimeValQ (u : TimeUnit) (v : ℚ) : ℤ :=
  pyTruncQ (v * (unitFactor u : ℚ))

/-! ## IEEE binary64 model of the same conversion

The source computes ms / factor and value * factor with Python floats.
This model represents a float value as an exact integer fraction and
rounds every operation to 53 significant bits, round-to-nearest-even,
within the normal exponent range the pipeline can reach (no overflow or
subnormals arise for realistic timestamps). -/

/-- Does 2 ^ e ≤ a / b hold (a ≥ 0, b > 0)? -/
def cmpPow2Le (e : ℤ) (a b : ℤ) : Bool :=
  if 0 ≤ e then b * 2 ^ e.toNat ≤ a else b ≤ a * 2 ^ (-e).toNat

/-- Binade exponent of the positive fraction a / b: the largest e in
[-150, 150] with 2 ^ e ≤ a / b (scanned from above). -/
def floatExp (a b : ℤ) : ℤ :=
  ((((List.range 301).map (fun k => (150 : ℤ) - k)).find?
    (fun e => cmpPow2Le e a b)).getD 0)

/-- Round a / b (a, b ≥ 0, b > 0) to the nearest integer, ties to even. -/
def rnearEven (a b : ℤ) : ℤ :=
  let q := a.tdiv b
  let r := a - q * b
  if 2 * r < b then q
  else if b < 2 * r then q + 1
  else if q % 2 = 0 then q else q + 1

/-- Round the nonnegative fraction a / b to the nearest IEEE binary64
value, returned as an exact fraction. -/
def roundFloatPos (a b : ℤ) : ℤ × ℤ :=
  if a = 0 then (0, 1)
  else
    let e := floatExp a b
    if e ≤ 52 then (rnearEven (a * 2 ^ (52 - e).toNat) b, 2 ^ (52 - e).toNat)
    else (rnearEven a (b * 2 ^ (e - 52).toNat) * 2 ^ (e - 52).toNat, 1)

/-- Round a / b (b > 0) to the nearest IEEE binary64 value. -/
def roundFloat (a b : ℤ) : ℤ × ℤ :=
  if a < 0 then
    let p := roundFloatPos (-a) b
    (-p.1, p.2)
  else roundFloatPos a b

/-- _convert_time under float semantics: the double nearest ms / factor. -/
def convertTimeF (u : TimeUnit) (ms : ℤ) : ℤ × ℤ :=
  roundFloat ms (unitFactor u : ℤ)

/-- _parse_time applied to a float value v under float semantics:
int(v * factor) with the product rounded to a double first. -/
def parseTimeValF (u : TimeUnit) (v : ℤ × ℤ) : ℤ :=
  let p := roundFloat (v.1 * (unitFactor u : ℤ)) v.2
  p.1.tdiv p.2

/-- The convert-then-parse round trip of claim C4 under float semantics. -/
def floatRoundTrip (u : TimeUnit) (ms : ℤ) : ℤ :=
  parseTimeValF u (convertTimeF u ms)

/-! ## Segment planner (src/scrapers/twitch.py) -/

/-- A planned segment window: start and stop in seconds plus the label used
in the segment file name (the title field of the segment dict). -/
structure SegWindow where
  start : ℚ
  stop : ℚ
  title : String
deriving DecidableEq

/-- Zero-padded decimal of n to width at least 3, Python '%03d'. -/
def pad3 (n : ℕ) : List Char :=
  List.replicate (3 - (natDigits n).length) '0' ++ natDigits n

/-- Label of the i-th window (0-based i): the 1-based index zero-padded. -/
def segLabel (i : ℕ) : String := String.mk (pad3 (i + 1))

/-- TwitchScraper._get_segments: for i in range(int(D / L) + 1) emit
[i*L, min((i+1)*L, D)) labelled '%03d' % (i+1), dropping windows with
stop ≤ start. -/
def _get_segments (D L : ℚ) : List SegWindow :=
  (List.range ((pyTruncQ (D / L)).toNat + 1)).filterMap (fun (i : ℕ) =>
    if min (((i : ℚ) + 1) * L) D ≤ (i : ℚ) * L then none
    else some ⟨(i : ℚ) * L, min (((i : ℚ) + 1) * L) D, segLabel i⟩)

/-- File name of the i-th window's downloaded segment,
f-string segment_{title}.wav of TwitchScraper._download_segment. -/
def segmentFileName (i : ℕ) : String :=
  "segment_" ++ segLabel i ++ ".wav"

/-! ## Gemini upload retry (src/providers/gemini.py) -/

/-- GeminiProvider._upload_file from a given retry_count: the oracle maps
the attempt index (the retry_count at which the attempt runs) to its
outcome.  Returns (number of attempts made, seconds slept before each
retry in order, final outcome). -/
def uploadFileAux (oracle : ℕ → Option ℕ) (maxRetries rc : ℕ) :
    ℕ × List ℕ × Option ℕ :=
  match oracle rc with
  | some f => (1, [], some f)
  | none =>
    if rc < maxRetries then
      let r := uploadFileAux oracle maxRetries (rc + 1)
      (r.1 + 1, 2 ^ rc :: r.2.1, r.2.2)
    else (1, [], none)
  termination_by maxRetries - rc
  decreasing_by omega

/-- GeminiProvider._upload_file with the default retry_count = 0. -/
def _upload_file (oracle : ℕ → Option ℕ) (maxRetries : ℕ) :
    ℕ × List ℕ × Option ℕ :=
  uploadFileAux oracle maxRetries 0

/-- GeminiProvider.transcribe: a failed upload raises ValueError, which the
enclosing try/except converts to None; otherwise the chat reply is
returned. -/
def geminiTranscribe (oracle : ℕ → Option ℕ) (maxRetries : ℕ)
    (chat : ℕ → String) : Option String :=
  match (_upload_file oracle maxRetries).2.2 with
  | none => none
  | some f => some (chat f)

/-! ## Speaker clipper (src/utils/speaker_clipper.py) -/

/-- A parsed transcription segment as consumed by SpeakerClipper. -/
structure TSegment where
  speaker : String
  timestamp : String
  durationField : Option String
deriving DecidableEq

/-- Exact value of a parsed decimal numeral (m, e) = m / 10 ^ e. -/
def decValQ (p : ℤ × ℤ) : ℚ :=
  (p.1 : ℚ) / (10 : ℚ) ^ p.2

/-- SpeakerClipper._parse_duration: split HH:MM:SS.mmm on ':', convert the
three fields and combine; any failure (wrong part count or an unparsable
field) is swallowed by the bare except and yields 0.0. -/
def _parse_duration (ts : String) : ℚ :=
  match splitAllL ':' ts.data with
  | [h, m, s] =>
    match parseFloatDec h, parseFloatDec m, parseFloatDec s with
    | some a, some b, some c => decValQ a * 3600 + decValQ b * 60 + decValQ c
    | _, _, _ => 0
  | _ => 0

/-- Parsed duration of a segment, segment.get('duration', '0'). -/
def segDuration (s : TSegment) : ℚ :=
  _parse_duration (s.durationField.getD "0")

/-- One iteration of SpeakerClipper._find_best_segments' loop over the
speaker dict held as an insertion-ordered association list: a new speaker
is appended, an existing entry is replaced only by a strictly longer
segment. -/
def updatePick (acc : List (String × String × ℚ)) (seg : TSegment) :
    List (String × String × ℚ) :=
  match acc.find? (fun x => x.1 == seg.speaker) with
  | none => acc ++ [(seg.speaker, seg.timestamp, segDuration seg)]
  | some x =>
    if x.2.2 < segDuration seg then
      acc.map (fun y =>
        if y.1 == seg.speaker then (seg.speaker, seg.timestamp, segDuration seg) else y)
    else acc

/-- SpeakerClipper._find_best_segments: speaker to timestamp of that
speaker's winning segment. -/
def _find_best_segments (segs : List TSegment) : List (String × String) :=
  (segs.foldl updatePick []).map (fun x => (x.1, x.2.1))

/-- Lookup of a speaker's chosen timestamp in the result. -/
def lookupPick (sp : String) (l : List (String × String)) : Option String :=
  (l.find? (fun x => x.1 == sp)).map (fun x => x.2)

/-- The (timestamp, parsed duration) entries of one speaker, in segment
order. -/
def speakerEntries (segs : List TSegment) (sp : String) : List (String × ℚ) :=
  (segs.filter (fun s => s.speaker == sp)).map (fun s => (s.timestamp, segDuration s))

/-- The claim's selection rule, stated independently: the first entry
whose duration no later entry strictly exceeds (greatest duration, ties
resolved in favour of the earliest). -/
def firstMaxR : List (String × ℚ) → Option (String × ℚ)
  | [] => none
  | x :: xs =>
    match firstMaxR xs with
    | none => some x
    | some y => if x.2 < y.2 then some y else some x

/-- Lookup of a speaker's (timestamp, duration) pick in the intermediate
dict of _find_best_segments. -/
def lookupEntry (sp : String) (acc : List (String × String × ℚ)) :
    Option (String × ℚ) :=
  (acc.find? (fun x => x.1 == sp)).map (fun x => x.2)

/-- Keep the current pick p unless the candidate (when present) is
strictly longer. -/
def pickBetter (p : String × ℚ) (o : Option (String × ℚ)) : String × ℚ :=
  match o with
  | none => p
  | some y => if p.2 < y.2 then y else p

/-- The keep-unless-strictly-longer fold on one speaker's entry stream,
the per-speaker shadow of _find_best_segments' loop. -/
def foldPick (o : Option (String × ℚ)) (l : List (String × ℚ)) :
    Option (String × ℚ) :=
  l.foldl (fun a x =>
    match a with
    | none => some x
    | some p => if p.2 < x.2 then some x else some p) o

/-! ## Token bucket rate limiter (src/scrapers/x_scraper.py) -/

/-- RateLimiter state: the configured rate and burst plus the current
token balance (last_update is implicit in the elapsed-time inputs). -/
structure RLState where
  rate : ℚ
  burst : ℚ
  tokens : ℚ
deriving DecidableEq

/-- RateLimiter.__init__(rate, burst): tokens starts at burst. -/
def rlInit (rate burst : ℚ) : RLState :=
  ⟨rate, burst, burst⟩

/-- RateLimiter.acquire: each iteration of the while loop observes the
elapsed wall-clock time since the previous observation (the next element
of ds, covering any sleep) and refills min(burst, tokens + elapsed*rate);
once the balance is positive a single token is debited.  Returns none if
the elapsed-time trace ds is exhausted while the balance is still not
positive. -/
def acquire (s : RLState) (ds : List ℚ) : Option RLState :=
  if 0 < s.tokens then some { s with tokens := s.tokens - 1 }
  else
    match ds with
    | [] => none
    | d :: rest =>
      acquire { s with tokens := min s.burst (s.tokens + d * s.rate) } rest

/-! ## Helper lemmas -/

/-- Unfolded closed form of the retry helper when every attempt fails. -/
theorem uploadFileAux_allFail (oracle : ℕ → Option ℕ) (M : ℕ)
    (h : ∀ n, oracle n = none) :
    ∀ n rc, M - rc = n → rc ≤ M →
      uploadFileAux oracle M rc =
        (n + 1, (List.range n).map (fun k => 2 ^ (rc + k)), none) := by
  intro n
  induction n with
  | zero =>
    intro rc hn hle
    unfold uploadFileAux
    rw [h rc]
    have : ¬ rc < M := by omega
    simp [this]
  | succ n ih =>
    intro rc hn hle
    unfold uploadFileAux
    rw [h rc]
    have hlt : rc < M := by omega
    have hr := ih (rc + 1) (by omega) (by omega)
    have hl : (List.range (n + 1)).map (fun k => 2 ^ (rc + k)) =
        2 ^ rc :: (List.range n).map (fun k => 2 ^ (rc + 1 + k)) := by
      rw [List.range_succ_eq_map, List.map_cons, List.map_map]
      refine congrArg₂ List.cons rfl ?_
      refine List.map_congr_left ?_
      intro k _
      show (2 : ℕ) ^ (rc + (k + 1)) = 2 ^ (rc + 1 + k)
      have hk : rc + (k + 1) = rc + 1 + k := by omega
      rw [hk]
    simp only [hlt, if_true, hr, hl]

/-- Evaluation of the rate limiter on the concrete fractional-refill trace. -/
theorem acquire_fractional_eval :
    acquire ⟨1, 1, 0⟩ [3/10] = some ⟨1, 1, -(7/10)⟩ := by
  unfold acquire
  norm_num
  unfold acquire
  norm_num

/-- Dropping nothing: a guarded filterMap whose guard rejects no element of
the list is a plain map. -/
theorem filterMap_guard_eq_map {β : Type} (f : ℕ → β) (p : ℕ → Prop)
    [DecidablePred p] (l : List ℕ) (h : ∀ i ∈ l, ¬ p i) :
    l.filterMap (fun i => if p i then none else some (f i)) = l.map f := by
  induction l with
  | nil => rfl
  | cons a t ih =>
    have ha : ¬ p a := h a (List.mem_cons_self a t)
    simp only [List.filterMap_cons, if_neg ha, List.map_cons,
      ih (fun i hi => h i (List.mem_cons_of_mem a hi))]

/-- Dropping everything: a guarded filterMap whose guard rejects every
element of the list is empty. -/
theorem filterMap_guard_eq_nil {β : Type} (f : ℕ → β) (p : ℕ → Prop)
    [DecidablePred p] (l : List ℕ) (h : ∀ i ∈ l, p i) :
    l.filterMap (fun i => if p i then none else some (f i)) = [] := by
  induction l with
  | nil => rfl
  | cons a t ih =>
    have ha : p a := h a (List.mem_cons_self a t)
    simp only [List.filterMap_cons, if_pos ha,
      ih (fun i hi => h i (List.mem_cons_of_mem a hi))]

/-- Closed form of the segment planner: exactly ceil(D/L) windows, window i
spanning [i*L, min((i+1)*L, D)) with label i+1 zero-padded. -/
theorem get_segments_eq (D L : ℚ) (hD : 0 < D) (hL : 0 < L) :
    _get_segments D L = (List.range (⌈D / L⌉.toNat)).map (fun (i : ℕ) =>
      ⟨(i : ℚ) * L, min (((i : ℚ) + 1) * L) D, segLabel i⟩) := by
  have hDL : 0 < D / L := div_pos hD hL
  have hfl : pyTruncQ (D / L) = ⌊D / L⌋ := if_neg (not_lt.mpr hDL.le)
  have hfl0 : (0 : ℤ) ≤ ⌊D / L⌋ := Int.floor_nonneg.mpr hDL.le
  have hcf : ⌈D / L⌉ ≤ ⌊D / L⌋ + 1 := Int.ceil_le_floor_add_one _
  have hfc : ⌊D / L⌋ ≤ ⌈D / L⌉ := Int.floor_le_ceil _
  have hm : ((⌈D / L⌉.toNat : ℤ)) = ⌈D / L⌉ := Int.toNat_of_nonneg (by omega)
  have hiWin : ∀ i : ℕ, i < ⌈D / L⌉.toNat → (i : ℚ) < D / L := by
    intro i hi
    have h1 : (i : ℤ) + 1 ≤ ⌈D / L⌉ := by omega
    have h2 : ((i : ℚ) + 1) ≤ (⌈D / L⌉ : ℚ) := by exact_mod_cast h1
    have h3 := Int.ceil_lt_add_one (D / L)
    linarith
  have hiOut : ∀ i : ℕ, ⌈D / L⌉.toNat ≤ i → D / L ≤ (i : ℚ) := by
    intro i hi
    have h1 : ⌈D / L⌉ ≤ (i : ℤ) := by omega
    have h2 : ((⌈D / L⌉ : ℤ) : ℚ) ≤ (i : ℚ) := by exact_mod_cast h1
    have h3 := Int.le_ceil (D / L)
    linarith
  unfold _get_segments
  rw [hfl]
  have hsplit : ⌊D / L⌋.toNat + 1 =
      ⌈D / L⌉.toNat + (⌊D / L⌋.toNat + 1 - ⌈D / L⌉.toNat) := by omega
  rw [hsplit, List.range_add, List.filterMap_append]
  rw [filterMap_guard_eq_map
      (fun (i : ℕ) => (⟨(i : ℚ) * L, min (((i : ℚ) + 1) * L) D, segLabel i⟩ : SegWindow))
      (fun (i : ℕ) => min (((i : ℚ) + 1) * L) D ≤ (i : ℚ) * L) _ ?hkeep,
    filterMap_guard_eq_nil
      (fun (i : ℕ) => (⟨(i : ℚ) * L, min (((i : ℚ) + 1) * L) D, segLabel i⟩ : SegWindow))
      (fun (i : ℕ) => min (((i : ℚ) + 1) * L) D ≤ (i : ℚ) * L) _ ?hdrop,
    List.append_nil]
  case hkeep =>
    intro i hi
    rw [List.mem_range] at hi
    have h1 : (i : ℚ) * L < D := (lt_div_iff hL).mp (hiWin i hi)
    have h2 : (i : ℚ) * L < ((i : ℚ) + 1) * L := by nlinarith
    exact not_le.mpr (lt_min h2 h1)
  case hdrop =>
    intro i hi
    obtain ⟨j, _, rfl⟩ := List.mem_map.mp hi
    have h1 : D / L ≤ ((⌈D / L⌉.toNat + j : ℕ) : ℚ) := hiOut _ (by omega)
    have h2 : D ≤ ((⌈D / L⌉.toNat + j : ℕ) : ℚ) * L := (div_le_iff hL).mp h1
    exact le_trans (min_le_right _ _) h2

/-! ## Claim theorems -/

/-- C1: the transcription pipeline's formatters (both variants returned by
get_formatter) do not define parse_transcription, so AudioTranscriber's
parse step self.formatter.parse_transcription(result) fails with
AttributeError for every provider result. -/
theorem parse_transcription_missing (fmt : String) (tu : TimeUnit) (raw : String) :
    hasMethod (get_formatter fmt tu).1 "parse_transcription" = false ∧
    transcribeParseStep (get_formatter fmt tu).1 raw =
      Except.error "AttributeError: parse_transcription" := by
  have hk : ∀ k : FormatterKind, hasMethod k "parse_transcription" = false := by
    intro k; cases k <;> decide
  exact ⟨hk _, by simp [transcribeParseStep, hk]⟩

/-- C4 (amended): the convert-then-parse timestamp round trip is the
identity on every integer millisecond count for every unit under exact
arithmetic, and under the code's IEEE binary64 arithmetic it still
reproduces 1500 for every unit. -/
theorem conversion_roundtrip :
    (∀ (u : TimeUnit) (m : ℤ), parseTimeValQ u (_convert_time u m) = m) ∧
    (∀ u : TimeUnit, floatRoundTrip u 1500 = 1500) := by
  constructor
  · intro u m
    have hf : (unitFactor u : ℚ) ≠ 0 := by cases u <;> norm_num [unitFactor]
    unfold parseTimeValQ _convert_time pyTruncQ
    rw [div_mul_cancel₀ _ hf]
    split_ifs <;> simp
  · intro u; cases u <;> decide

/-- C4 (counterexample): under the code's IEEE binary64 arithmetic the
round trip through the 's' unit maps 1001 ms to 1.001 s and back to
1000 ms, not 1001. -/
theorem conversion_roundtrip_float_cex :
    floatRoundTrip TimeUnit.s 1001 = 1000 ∧ (1000 : ℤ) ≠ 1001 := by
  constructor
  · decide
  · decide

/-- C7: when every upload attempt fails, _upload_file makes exactly
max_retries retries beyond the first attempt, sleeping 2^attempt seconds
before each retry (attempts 0-indexed), returns None instead of raising,
and the enclosing transcribe call returns None as well. -/
theorem upload_retry_exhaustion (M : ℕ) (oracle : ℕ → Option ℕ)
    (chat : ℕ → String) (h : ∀ n, oracle n = none) :
    _upload_file oracle M = (M + 1, (List.range M).map (fun a => 2 ^ a), none) ∧
    geminiTranscribe oracle M chat = none := by
  have hu := uploadFileAux_allFail oracle M h M 0 (by omega) (by omega)
  constructor
  · unfold _upload_file
    rw [hu]
    simp
  · unfold geminiTranscribe _upload_file
    rw [hu]

/-- C7 (witness): with max_retries = 3 and an always-failing oracle there
are 4 attempts, the sleeps are 1, 2, 4 seconds, and both the upload and
the transcribe call return None. -/
theorem upload_retry_exhaustion_witness :
    _upload_file (fun _ => none) 3 = (4, [1, 2, 4], none) ∧
    geminiTranscribe (fun _ => none) 3 (fun _ => "") = none := by
  have h := upload_retry_exhaustion 3 (fun _ => none) (fun _ => "") (fun _ => rfl)
  refine ⟨?_, h.2⟩
  rw [h.1]
  decide

/-- C9 (counterexample): starting from a fresh limiter with rate 1 and
burst 1, one acquire empties the bucket and a second acquire after 0.3
elapsed seconds refills to 0.3 tokens and then debits a full token,
leaving tokens = -0.7 < 0, violating the claimed 0 <= tokens invariant. -/
theorem rate_limiter_negative_tokens :
    acquire (rlInit 1 1) [] = some ⟨1, 1, 0⟩ ∧
    (acquire ⟨1, 1, 0⟩ [3/10]).map RLState.tokens = some (-(7/10)) ∧
    ¬ (0 : ℚ) ≤ -(7/10) := by
  refine ⟨?_, ?_, by norm_num⟩
  · unfold acquire rlInit
    norm_num
  · rw [acquire_fractional_eval]
    rfl

/-- C9 (amended): the invariant that actually holds at every observation
point is -1 < tokens, tokens <= burst: the lazy refill is capped at the
burst capacity and every completed acquire debits exactly one token from
a strictly positive post-refill balance (so the balance can dip into
(-1, 0) but never below). -/
theorem rate_limiter_invariant (s : RLState) (ds : List ℚ) (s' : RLState)
    (hb : s.tokens ≤ s.burst) (h : acquire s ds = some s') :
    s'.rate = s.rate ∧ s'.burst = s.burst ∧
    (-1 < s'.tokens ∧ s'.tokens ≤ s.burst) ∧
    ∃ t : ℚ, 0 < t ∧ t ≤ s.burst ⊔ s.tokens ∧ s'.tokens = t - 1 := by
  induction ds generalizing s with
  | nil =>
    unfold acquire at h
    split_ifs at h with hpos
    · obtain rfl : { s with tokens := s.tokens - 1 } = s' := by
        simpa using h
      exact ⟨rfl, rfl, ⟨by simpa using hpos, by simp; linarith⟩,
        s.tokens, hpos, le_max_right _ _, rfl⟩
  | cons d rest ih =>
    unfold acquire at h
    split_ifs at h with hpos
    · obtain rfl : { s with tokens := s.tokens - 1 } = s' := by
        simpa using h
      exact ⟨rfl, rfl, ⟨by simpa using hpos, by simp; linarith⟩,
        s.tokens, hpos, le_max_right _ _, rfl⟩
    · have hb1 : ({ s with tokens := min s.burst (s.tokens + d * s.rate) } :
          RLState).tokens ≤ ({ s with tokens := min s.burst (s.tokens + d * s.rate) } :
          RLState).burst := by
        simp
      obtain ⟨h1, h2, h3, t, ht1, ht2, ht3⟩ := ih _ hb1 h
      refine ⟨h1, h2, by simpa using h3, t, ht1, ?_, ht3⟩
      simp only [RLState.burst, RLState.tokens] at ht2 ⊢
      have : min s.burst (s.tokens + d * s.rate) ≤ s.burst := min_le_left _ _
      calc t ≤ s.burst ⊔ min s.burst (s.tokens + d * s.rate) := ht2
        _ ≤ s.burst := by simp [this]
        _ ≤ s.burst ⊔ s.tokens := le_max_left _ _

/-- C9 (witness): instantiating the invariant on the concrete trace that
produces the -0.7 balance. -/
theorem rate_limiter_invariant_witness :
    (-1 : ℚ) < -(7/10) ∧ (-(7/10) : ℚ) ≤ 1 := by
  have h := rate_limiter_invariant ⟨1, 1, 0⟩ [3/10] ⟨1, 1, -(7/10)⟩
    (by norm_num) acquire_fractional_eval
  exact h.2.2.1

/-- C10: get_formatter lowercases the requested format, maps 'txt' and
'json' to the corresponding formatter, and silently falls back to the
text formatter (with the given time unit) for every other string instead
of raising a configuration error. -/
theorem get_formatter_fallback (ft : String) (tu : TimeUnit) :
    (pyLower ft = "txt" → get_formatter ft tu = (.text, tu)) ∧
    (pyLower ft = "json" → get_formatter ft tu = (.json, tu)) ∧
    (pyLower ft ≠ "txt" → pyLower ft ≠ "json" →
      get_formatter ft tu = (.text, tu)) := by
  unfold get_formatter
  split_ifs with h1 h2 <;> simp_all

/-- C10 (witness): mixed-case 'TXT' and 'jSoN' select the two formatters
and the misspelled 'xml' silently degrades to the text formatter. -/
theorem get_formatter_fallback_witness :
    get_formatter "TXT" .ms = (.text, .ms) ∧
    get_formatter "jSoN" .s = (.json, .s) ∧
    get_formatter "xml" .minu = (.text, .minu) :=
  ⟨(get_formatter_fallback "TXT" .ms).1 (by decide),
   (get_formatter_fallback "jSoN" .s).2.1 (by decide),
   (get_formatter_fallback "xml" .minu).2.2 (by decide) (by decide)⟩

/-- C2: for D, L > 0 the segment planner emits exactly ceil(D/L) windows;
window i spans [i*L, min((i+1)*L, D)) and carries label i+1; every window
is nonempty (the degenerate trailing window is dropped); consecutive
windows are contiguous; the first window starts at 0 and the last stops
at D, so the ordered windows cover [0, D) without overlap. -/
theorem segment_planner_spec (D L : ℚ) (hD : 0 < D) (hL : 0 < L) :
    ((_get_segments D L).length : ℤ) = ⌈D / L⌉ ∧
    (∀ (i : ℕ) (h : i < (_get_segments D L).length),
      ((_get_segments D L).get ⟨i, h⟩).start = (i : ℚ) * L ∧
      ((_get_segments D L).get ⟨i, h⟩).stop = min (((i : ℚ) + 1) * L) D ∧
      ((_get_segments D L).get ⟨i, h⟩).title = segLabel i) ∧
    (∀ w ∈ _get_segments D L, w.start < w.stop) ∧
    List.Chain' (fun a b => a.stop = b.start) (_get_segments D L) ∧
    Option.map SegWindow.start (_get_segments D L).head? = some 0 ∧
    Option.map SegWindow.stop (_get_segments D L).getLast? = some D := by
  have hDL : 0 < D / L := div_pos hD hL
  have hc := get_segments_eq D L hD hL
  have hm : ((⌈D / L⌉.toNat : ℤ)) = ⌈D / L⌉ :=
    Int.toNat_of_nonneg (le_of_lt (Int.ceil_pos.mpr hDL))
  have hm1 : 1 ≤ ⌈D / L⌉.toNat := by
    have := Int.ceil_pos.mpr hDL
    omega
  have hiWin : ∀ i : ℕ, i < ⌈D / L⌉.toNat → (i : ℚ) < D / L := by
    intro i hi
    have h1 : (i : ℤ) + 1 ≤ ⌈D / L⌉ := by omega
    have h2 : ((i : ℚ) + 1) ≤ (⌈D / L⌉ : ℚ) := by exact_mod_cast h1
    have h3 := Int.ceil_lt_add_one (D / L)
    linarith
  have hlen : (_get_segments D L).length = ⌈D / L⌉.toNat := by
    rw [hc, List.length_map, List.length_range]
  have hget : ∀ (i : ℕ) (h : i < (_get_segments D L).length),
      (_get_segments D L).get ⟨i, h⟩ =
        ⟨(i : ℚ) * L, min (((i : ℚ) + 1) * L) D, segLabel i⟩ := by
    intro i h
    rw [List.get_of_eq hc]
    simp [List.get_map, List.get_range]
  refine ⟨by rw [hlen]; exact hm, ?_, ?_, ?_, ?_, ?_⟩
  · intro i h
    rw [hget i h]
    exact ⟨rfl, rfl, rfl⟩
  · intro w hw
    rw [hc] at hw
    obtain ⟨i, hi, rfl⟩ := List.mem_map.mp hw
    rw [List.mem_range] at hi
    have h1 : (i : ℚ) * L < D := (lt_div_iff hL).mp (hiWin i hi)
    have h2 : (i : ℚ) * L < ((i : ℚ) + 1) * L := by nlinarith
    exact lt_min h2 h1
  · rw [List.chain'_iff_get]
    intro i h
    rw [hlen] at h
    rw [hget i (by omega : i < (_get_segments D L).length),
      hget (i + 1) (by omega : i + 1 < (_get_segments D L).length)]
    show min (((i : ℚ) + 1) * L) D = ((i + 1 : ℕ) : ℚ) * L
    have hi1 : i + 1 < ⌈D / L⌉.toNat := by omega
    have h1 : ((i : ℚ) + 1) * L < D := by
      have := (lt_div_iff hL).mp (hiWin (i + 1) hi1)
      push_cast at this
      linarith
    rw [min_eq_left (le_of_lt h1)]
    push_cast
    ring
  · rw [hc]
    obtain ⟨n, hn⟩ : ∃ n, ⌈D / L⌉.toNat = n + 1 := ⟨⌈D / L⌉.toNat - 1, by omega⟩
    rw [hn, List.range_succ_eq_map, List.map_cons, List.head?_cons]
    simp
  · rw [hc]
    obtain ⟨n, hn⟩ : ∃ n, ⌈D / L⌉.toNat = n + 1 := ⟨⌈D / L⌉.toNat - 1, by omega⟩
    rw [hn, List.range_succ, List.map_append, List.map_cons, List.map_nil,
      List.getLast?_concat]
    have hD' : D ≤ ((n : ℚ) + 1) * L := by
      have h1 : D / L ≤ ((⌈D / L⌉ : ℤ) : ℚ) := Int.le_ceil _
      have h2 : ((⌈D / L⌉ : ℤ) : ℚ) = ((n : ℚ) + 1) := by
        rw [← hm, hn]
        push_cast
        ring
      rw [h2] at h1
      exact (div_le_iff hL).mp h1
    simp [min_eq_right hD']

/-- C2 (witness): for a 12-minute stream cut into 5-minute windows the
planner yields exactly the three windows [0,300), [300,600), [600,720). -/
theorem segment_planner_witness :
    (0 : ℚ) < 720 ∧ (0 : ℚ) < 300 ∧
    ((_get_segments 720 300).length : ℤ) = ⌈(720 : ℚ) / 300⌉ ∧
    _get_segments 720 300 =
      [⟨0, 300, segLabel 0⟩, ⟨300, 600, segLabel 1⟩, ⟨600, 720, segLabel 2⟩] := by
  have h := segment_planner_spec 720 300 (by norm_num) (by norm_num)
  refine ⟨by norm_num, by norm_num, h.1, ?_⟩
  have hceil : ⌈(720 : ℚ) / 300⌉ = 3 := by
    rw [Int.ceil_eq_iff]
    constructor <;> norm_num
  rw [get_segments_eq 720 300 (by norm_num) (by norm_num), hceil]
  show (List.range 3).map _ = _
  rw [show (3 : ℕ) = 2 + 1 from rfl, List.range_succ,
    show (2 : ℕ) = 1 + 1 from rfl, List.range_succ,
    show (1 : ℕ) = 0 + 1 from rfl, List.range_succ, List.range_zero]
  simp only [List.nil_append, List.map_append, List.map_cons, List.map_nil]
  norm_num

/-- Digit characters order like their digits. -/
theorem digitChar_lt_digitChar :
    ∀ a, a < 10 → ∀ b, b < 10 → a < b → digitChar a < digitChar b := by
  decide

/-- The digit accumulator ignores its fuel as long as there is enough. -/
theorem natDigitsAux_fuel : ∀ f₁ f₂ n, n < f₁ → n < f₂ →
    natDigitsAux f₁ n = natDigitsAux f₂ n := by
  intro f₁
  induction f₁ with
  | zero => intro f₂ n h1; omega
  | succ f ih =>
    intro f₂ n h1 h2
    cases f₂ with
    | zero => omega
    | succ g =>
      show natDigitsAux (f + 1) n = natDigitsAux (g + 1) n
      unfold natDigitsAux
      by_cases hn : n < 10
      · simp [hn]
      · simp only [hn, if_false]
        rw [ih g (n / 10) (by omega) (by omega)]

/-- natDigits on a single-digit number. -/
theorem natDigits_small (n : ℕ) (h : n < 10) : natDigits n = [digitChar n] := by
  unfold natDigits natDigitsAux
  simp [h]

/-- natDigits peels off the least significant digit. -/
theorem natDigits_step (n : ℕ) (h : 10 ≤ n) :
    natDigits n = natDigits (n / 10) ++ [digitChar (n % 10)] := by
  show natDigitsAux (n + 1) n = natDigitsAux (n / 10 + 1) (n / 10) ++ [digitChar (n % 10)]
  rw [show natDigitsAux (n + 1) n =
      if n < 10 then [digitChar n] else natDigitsAux n (n / 10) ++ [digitChar (n % 10)] from rfl]
  rw [if_neg (by omega)]
  rw [natDigitsAux_fuel n (n / 10 + 1) (n / 10) (by omega) (by omega)]

/-- Below 1000 the zero-padded label is exactly the three decimal digits. -/
theorem pad3_digits (n : ℕ) (h : n < 1000) :
    pad3 n = [digitChar (n / 100), digitChar (n / 10 % 10), digitChar (n % 10)] := by
  by_cases h1 : n < 10
  · unfold pad3
    rw [natDigits_small n h1]
    have e1 : n / 100 = 0 := by omega
    have e2 : n / 10 % 10 = 0 := by omega
    have e3 : n % 10 = n := by omega
    rw [e1, e2, e3]
    rfl
  · by_cases h2 : n < 100
    · unfold pad3
      rw [natDigits_step n (by omega), natDigits_small (n / 10) (by omega)]
      have e1 : n / 100 = 0 := by omega
      have e2 : n / 10 % 10 = n / 10 := by omega
      rw [e1, e2]
      rfl
    · unfold pad3
      rw [natDigits_step n (by omega), natDigits_step (n / 10) (by omega),
        show n / 10 / 10 = n / 100 by omega,
        natDigits_small (n / 100) (by omega)]
      rfl

/-- A common prefix preserves strict lexicographic order of lists. -/
theorem list_lt_append_left (p : List Char) :
    ∀ x y : List Char, x < y → p ++ x < p ++ y := by
  induction p with
  | nil => intro x y h; exact h
  | cons c t ih =>
    intro x y h
    exact List.Lex.cons (ih x y h)

/-- Appending arbitrary suffixes preserves strict lexicographic order of
equal-length lists. -/
theorem list_lt_append_suffix :
    ∀ (x y : List Char), x < y → x.length = y.length →
      ∀ s₁ s₂ : List Char, x ++ s₁ < y ++ s₂ := by
  intro x y hlt
  induction hlt with
  | nil =>
    intro hlen
    simp at hlen
  | cons _ ih =>
    intro hlen s₁ s₂
    exact List.Lex.cons (ih (by simpa using hlen) s₁ s₂)
  | rel h =>
    intro _ s₁ s₂
    exact List.Lex.rel h

/-- Labels below 1000 order lexicographically like their values. -/
theorem pad3_lt (a b : ℕ) (ha : a < 1000) (hb : b < 1000) (hab : a < b) :
    pad3 a < pad3 b := by
  rw [pad3_digits a ha, pad3_digits b hb]
  have hd : a / 100 < b / 100 ∨ (a / 100 = b / 100 ∧
      (a / 10 % 10 < b / 10 % 10 ∨ (a / 10 % 10 = b / 10 % 10 ∧ a % 10 < b % 10))) := by
    omega
  rcases hd with h | ⟨e1, h⟩
  · exact List.Lex.rel (digitChar_lt_digitChar _ (by omega) _ (by omega) h)
  · rw [e1]
    rcases h with h | ⟨e2, h⟩
    · exact List.Lex.cons
        (List.Lex.rel (digitChar_lt_digitChar _ (by omega) _ (by omega) h))
    · rw [e2]
      exact List.Lex.cons (List.Lex.cons
        (List.Lex.rel (digitChar_lt_digitChar _ (by omega) _ (by omega) h)))

/-- Chronological window index order gives strict string order of labels. -/
theorem segLabel_lt_of_lt (i j : ℕ) (hij : i < j) (hj : j ≤ 998) :
    segLabel i < segLabel j := by
  rw [String.lt_iff_toList_lt]
  exact pad3_lt (i + 1) (j + 1) (by omega) (by omega) (by omega)

/-- Chronological window index order gives strict string order of the
segment file names. -/
theorem segmentFileName_lt_of_lt (i j : ℕ) (hij : i < j) (hj : j ≤ 998) :
    segmentFileName i < segmentFileName j := by
  rw [String.lt_iff_toList_lt]
  show (segmentFileName i).data < (segmentFileName j).data
  unfold segmentFileName segLabel
  rw [String.data_append, String.data_append,
    String.data_append, String.data_append, List.append_assoc,
    List.append_assoc]
  apply list_lt_append_left
  show pad3 (i + 1) ++ ".wav".data < pad3 (j + 1) ++ ".wav".data
  apply list_lt_append_suffix
  · exact pad3_lt (i + 1) (j + 1) (by omega) (by omega) (by omega)
  · rw [pad3_digits (i + 1) (by omega), pad3_digits (j + 1) (by omega)]
    rfl

/-- C6: window labels ('%03d' of the 1-based index) compare
lexicographically in chronological order for up to 999 windows, the
downloaded segment file names inherit that order, and the planner's window
list therefore has strictly increasing titles whenever it has at most 999
windows, so a lexicographic sort of the fetched files reproduces
chronological order. -/
theorem segment_label_lex_order (i j : ℕ) (hij : i < j) (hj : j ≤ 998) :
    segLabel i < segLabel j ∧ segmentFileName i < segmentFileName j ∧
    (∀ D L : ℚ, 0 < D → 0 < L → (_get_segments D L).length ≤ 999 →
      List.Pairwise (fun a b : SegWindow => a.title < b.title) (_get_segments D L)) := by
  refine ⟨segLabel_lt_of_lt i j hij hj, segmentFileName_lt_of_lt i j hij hj, ?_⟩
  intro D L hD hL hn
  rw [get_segments_eq D L hD hL] at hn ⊢
  rw [List.length_map, List.length_range] at hn
  rw [List.pairwise_map]
  refine List.Pairwise.imp_of_mem ?_ (List.pairwise_lt_range _)
  intro a b ha hb hab
  rw [List.mem_range] at hb
  exact segLabel_lt_of_lt a b hab (by omega)

/-- C6 (witness): concrete instances of the label order, including a pair
of different digit widths before padding, and the planner's three-window
example list. -/
theorem segment_label_lex_order_witness :
    segLabel 41 < segLabel 997 ∧ segmentFileName 41 < segmentFileName 997 ∧
    List.Pairwise (fun a b : SegWindow => a.title < b.title)
      (_get_segments 720 300) := by
  have h := segment_label_lex_order 41 997 (by omega) (by omega)
  refine ⟨h.1, h.2.1, h.2.2 720 300 (by norm_num) (by norm_num) ?_⟩
  rw [get_segments_eq 720 300 (by norm_num) (by norm_num)]
  rw [List.length_map, List.length_range]
  have hceil : ⌈(720 : ℚ) / 300⌉ = 3 := by
    rw [Int.ceil_eq_iff]
    constructor <;> norm_num
  rw [hceil]
  omega

/-- find? by key commutes with a key-preserving map. -/
theorem find?_key_map {β γ : Type} (l : List (String × β)) (f : String × β → String × γ)
    (hf : ∀ y, (f y).1 = y.1) (k : String) :
    (l.map f).find? (fun z => z.1 == k) = (l.find? (fun z => z.1 == k)).map f := by
  induction l with
  | nil => rfl
  | cons a t ih =>
    by_cases h : a.1 = k
    · have h1 : ((f a).1 == k) = true := by
        rw [hf a]
        exact beq_iff_eq.mpr h
      have h2 : (a.1 == k) = true := beq_iff_eq.mpr h
      simp [List.find?_cons, h1, h2]
    · have h1 : ((f a).1 == k) = false := by
        rw [hf a]
        exact beq_eq_false_iff_ne.mpr h
      have h2 : (a.1 == k) = false := beq_eq_false_iff_ne.mpr h
      simp [List.find?_cons, h1, h2, ih]

/-- The replacement map of _find_best_segments preserves keys. -/
theorem updMap_key (sp : String) (ts : String) (d : ℚ) :
    ∀ y : String × String × ℚ,
      ((fun y => if y.1 == sp then (sp, ts, d) else y) y).1 = y.1 := by
  intro y
  by_cases h : y.1 = sp
  · simp [h]
  · simp [beq_eq_false_iff_ne.mpr h]

/-- Effect of one loop iteration on the tracked speaker's entry. -/
theorem lookupEntry_updatePick_same (acc : List (String × String × ℚ)) (seg : TSegment) :
    lookupEntry seg.speaker (updatePick acc seg) =
      (match lookupEntry seg.speaker acc with
       | none => some (seg.timestamp, segDuration seg)
       | some p => if p.2 < segDuration seg then
           some (seg.timestamp, segDuration seg) else some p) := by
  cases hfind : acc.find? (fun x => x.1 == seg.speaker) with
  | none =>
    have hupd : updatePick acc seg =
        acc ++ [(seg.speaker, seg.timestamp, segDuration seg)] := by
      unfold updatePick
      rw [hfind]
    rw [hupd]
    unfold lookupEntry
    rw [List.find?_append, hfind]
    simp
  | some x =>
    have hx := List.find?_some hfind
    by_cases hd : x.2.2 < segDuration seg
    · have hupd : updatePick acc seg = acc.map (fun y =>
          if y.1 == seg.speaker then
            (seg.speaker, seg.timestamp, segDuration seg) else y) := by
        unfold updatePick
        rw [hfind]
        dsimp only
        rw [if_pos hd]
      rw [hupd]
      unfold lookupEntry
      rw [find?_key_map acc _ (updMap_key seg.speaker seg.timestamp (segDuration seg)),
        hfind]
      have hx1 : x.1 = seg.speaker := by simpa using hx
      simp [hx, hd, hx1]
    · have hupd : updatePick acc seg = acc := by
        simp only [updatePick, hfind]
        rw [if_neg hd]
      rw [hupd]
      unfold lookupEntry
      rw [hfind]
      simp [hd]

/-- Other speakers' entries are untouched by one loop iteration. -/
theorem lookupEntry_updatePick_other (acc : List (String × String × ℚ)) (seg : TSegment)
    (sp : String) (hsp : seg.speaker ≠ sp) :
    lookupEntry sp (updatePick acc seg) = lookupEntry sp acc := by
  cases hfind : acc.find? (fun x => x.1 == seg.speaker) with
  | none =>
    have hupd : updatePick acc seg =
        acc ++ [(seg.speaker, seg.timestamp, segDuration seg)] := by
      unfold updatePick
      rw [hfind]
    rw [hupd]
    unfold lookupEntry
    rw [List.find?_append]
    cases hsp2 : acc.find? (fun x => x.1 == sp) with
    | none =>
      simp [beq_eq_false_iff_ne.mpr hsp]
    | some y =>
      simp
  | some x =>
    by_cases hd : x.2.2 < segDuration seg
    · have hupd : updatePick acc seg = acc.map (fun y =>
          if y.1 == seg.speaker then
            (seg.speaker, seg.timestamp, segDuration seg) else y) := by
        unfold updatePick
        rw [hfind]
        dsimp only
        rw [if_pos hd]
      rw [hupd]
      unfold lookupEntry
      rw [find?_key_map acc _ (updMap_key seg.speaker seg.timestamp (segDuration seg))]
      cases hsp2 : acc.find? (fun x => x.1 == sp) with
      | none => rfl
      | some y =>
        have hy := List.find?_some hsp2
        have hy1 : y.1 = sp := by
          simpa using hy
        have hyne : (y.1 == seg.speaker) = false := by
          rw [hy1]
          exact beq_eq_false_iff_ne.mpr (fun h => hsp h.symm)
        have hne : y.1 ≠ seg.speaker := by
          rw [hy1]
          exact fun h => hsp h.symm
        simp [hyne, hne]
    · have hupd : updatePick acc seg = acc := by
        simp only [updatePick, hfind]
        rw [if_neg hd]
      rw [hupd]

/-- The whole loop, viewed through one speaker's entry: it is the
keep-unless-strictly-longer fold over that speaker's entries. -/
theorem findBest_lookup (segs : List TSegment) :
    ∀ (acc : List (String × String × ℚ)) (sp : String),
      lookupEntry sp (segs.foldl updatePick acc) =
        foldPick (lookupEntry sp acc) (speakerEntries segs sp) := by
  induction segs with
  | nil => intro acc sp; rfl
  | cons seg rest ih =>
    intro acc sp
    rw [List.foldl_cons, ih (updatePick acc seg) sp]
    by_cases hsp : seg.speaker = sp
    · subst hsp
      have hse : speakerEntries (seg :: rest) seg.speaker =
          (seg.timestamp, segDuration seg) :: speakerEntries rest seg.speaker := by
        unfold speakerEntries
        rw [List.filter_cons]
        simp
      rw [hse, lookupEntry_updatePick_same acc seg]
      show foldPick _ _ = foldPick _ _
      cases hle : lookupEntry seg.speaker acc with
      | none => rfl
      | some p => rfl
    · have hse : speakerEntries (seg :: rest) sp = speakerEntries rest sp := by
        unfold speakerEntries
        rw [List.filter_cons]
        simp [beq_eq_false_iff_ne.mpr hsp]
      rw [hse, lookupEntry_updatePick_other acc seg sp hsp]

/-- Unfolding of the first-maximum recursion on a cons cell. -/
theorem firstMaxR_cons (x : String × ℚ) (xs : List (String × ℚ)) :
    firstMaxR (x :: xs) = some (pickBetter x (firstMaxR xs)) := by
  show (match firstMaxR xs with
    | none => some x
    | some y => if x.2 < y.2 then some y else some x) = _
  cases firstMaxR xs with
  | none => rfl
  | some y =>
    show (if x.2 < y.2 then some y else some x) = some (if x.2 < y.2 then y else x)
    exact (apply_ite some (x.2 < y.2) y x).symm

/-- A nonempty list always has a first maximum. -/
theorem firstMaxR_none_iff (l : List (String × ℚ)) :
    firstMaxR l = none ↔ l = [] := by
  cases l with
  | nil => simp [firstMaxR]
  | cons x xs =>
    rw [firstMaxR_cons]
    simp

/-- The pick-better combinator never decreases the pick's duration. -/
theorem pickBetter_le (p : String × ℚ) (o : Option (String × ℚ)) :
    p.2 ≤ (pickBetter p o).2 := by
  cases o with
  | none => exact le_refl _
  | some y =>
    show p.2 ≤ (if p.2 < y.2 then y else p).2
    split_ifs with h
    · exact le_of_lt h
    · exact le_refl _

/-- The keep-unless-strictly-longer fold seeded with a pick p computes
pickBetter of p against the first maximum of the list. -/
theorem foldPick_some (l : List (String × ℚ)) :
    ∀ p : String × ℚ, foldPick (some p) l = some (pickBetter p (firstMaxR l)) := by
  induction l with
  | nil => intro p; rfl
  | cons z rest ih =>
    intro p
    show foldPick (if p.2 < z.2 then some z else some p) rest = _
    rw [firstMaxR_cons]
    by_cases h1 : p.2 < z.2
    · rw [if_pos h1, ih z]
      have hw : p.2 < (pickBetter z (firstMaxR rest)).2 :=
        lt_of_lt_of_le h1 (pickBetter_le z _)
      show _ = some (if p.2 < (pickBetter z (firstMaxR rest)).2
        then pickBetter z (firstMaxR rest) else p)
      rw [if_pos hw]
    · rw [if_neg h1, ih p]
      cases hfr : firstMaxR rest with
      | none =>
        show some p = some (if p.2 < z.2 then z else p)
        rw [if_neg h1]
      | some y =>
        show some (if p.2 < y.2 then y else p) =
          some (if p.2 < (if z.2 < y.2 then y else z).2
            then (if z.2 < y.2 then y else z) else p)
        by_cases h2 : z.2 < y.2
        · rw [if_pos h2]
        · rw [if_neg h2]
          have h3 : ¬ p.2 < y.2 := fun hc =>
            h1 (lt_of_lt_of_le hc (not_lt.mp h2))
          rw [if_neg h3, if_neg h1]

/-- The unseeded fold is exactly the first maximum. -/
theorem foldPick_none (l : List (String × ℚ)) :
    foldPick none l = firstMaxR l := by
  cases l with
  | nil => rfl
  | cons x xs =>
    show foldPick (some x) xs = _
    rw [foldPick_some xs x, firstMaxR_cons]

/-- firstMaxR picks a member whose duration dominates the whole list and
which strictly dominates everything before it. -/
theorem firstMaxR_spec (l : List (String × ℚ)) :
    ∀ y, firstMaxR l = some y →
      y ∈ l ∧ (∀ z ∈ l, z.2 ≤ y.2) ∧
      ∃ l₁ l₂, l = l₁ ++ y :: l₂ ∧ ∀ z ∈ l₁, z.2 < y.2 := by
  induction l with
  | nil => intro y h; cases h
  | cons x xs ih =>
    intro y h
    rw [firstMaxR_cons] at h
    simp only [Option.some.injEq] at h
    cases hfr : firstMaxR xs with
    | none =>
      rw [hfr] at h
      have hy : y = x := h.symm
      subst hy
      have hxs : xs = [] := (firstMaxR_none_iff xs).mp hfr
      subst hxs
      exact ⟨List.mem_singleton.mpr rfl, by simp, [], [], rfl, by simp⟩
    | some w =>
      rw [hfr] at h
      obtain ⟨hmem, hmax, l₁, l₂, heq, hpre⟩ := ih w hfr
      by_cases hc : x.2 < w.2
      · rw [show pickBetter x (some w) = if x.2 < w.2 then w else x from rfl,
          if_pos hc] at h
        subst h
        refine ⟨List.mem_cons_of_mem x hmem, ?_, x :: l₁, l₂, by rw [heq]; rfl, ?_⟩
        · intro z hz
          rcases List.mem_cons.mp hz with rfl | hz2
          · exact le_of_lt hc
          · exact hmax z hz2
        · intro z hz
          rcases List.mem_cons.mp hz with rfl | hz2
          · exact hc
          · exact hpre z hz2
      · rw [show pickBetter x (some w) = if x.2 < w.2 then w else x from rfl,
          if_neg hc] at h
        subst h
        refine ⟨List.mem_cons_self x xs, ?_, [], xs, rfl, by simp⟩
        intro z hz
        rcases List.mem_cons.mp hz with rfl | hz2
        · exact le_refl _
        · exact le_trans (hmax z hz2) (not_lt.mp hc)

/-- C8: _find_best_segments maps each distinct speaker to the timestamp of
that speaker's first longest segment (an existing pick is replaced only by
a strictly longer later one); the chosen entry's parsed duration dominates
all of that speaker's segments and strictly dominates all earlier ones; a
malformed duration field parses to 0 instead of raising and so competes as
a zero-duration candidate; and two segments of 4s and 10s for one speaker
select the 10s segment's start time. -/
theorem best_segments_spec (segs : List TSegment) (sp : String) :
    lookupPick sp (_find_best_segments segs) =
      Option.map Prod.fst (firstMaxR (speakerEntries segs sp)) ∧
    (∀ y, firstMaxR (speakerEntries segs sp) = some y →
      y ∈ speakerEntries segs sp ∧ (∀ z ∈ speakerEntries segs sp, z.2 ≤ y.2) ∧
      ∃ l₁ l₂, speakerEntries segs sp = l₁ ++ y :: l₂ ∧ ∀ z ∈ l₁, z.2 < y.2) ∧
    (∀ ts : String, (splitAllL ':' ts.data).length ≠ 3 → _parse_duration ts = 0) ∧
    (∀ ts : String, ∀ a b c : List Char, splitAllL ':' ts.data = [a, b, c] →
      parseFloatDec a = none ∨ parseFloatDec b = none ∨ parseFloatDec c = none →
      _parse_duration ts = 0) ∧
    _find_best_segments
      [⟨"A", "00:00:01.000", some "00:00:04.000"⟩,
       ⟨"A", "00:00:05.000", some "00:00:10.000"⟩] = [("A", "00:00:05.000")] := by
  refine ⟨?_, firstMaxR_spec (speakerEntries segs sp), ?_, ?_, ?_⟩
  · have h1 := findBest_lookup segs [] sp
    rw [show lookupEntry sp ([] : List (String × String × ℚ)) = none from rfl,
      foldPick_none] at h1
    unfold lookupEntry at h1
    unfold lookupPick _find_best_segments
    rw [find?_key_map (segs.foldl updatePick [])
      (fun x => (x.1, x.2.1)) (fun y => rfl) sp]
    have h2 := congrArg (Option.map Prod.fst) h1
    rw [Option.map_map] at h2 ⊢
    exact h2
  · intro ts h
    unfold _parse_duration
    split
    · next a b c heq =>
      exact absurd (by rw [heq]; rfl : (splitAllL ':' ts.data).length = 3) h
    · rfl
  · intro ts a b c hsplit hnone
    unfold _parse_duration
    split
    · next a' b' c' heq =>
      rw [hsplit] at heq
      injection heq with e1 heq
      injection heq with e2 heq
      injection heq with e3 _
      subst e1
      subst e2
      subst e3
      split
      · next x y z hx hy hz =>
        rcases hnone with h | h | h <;> simp_all
      · rfl
    · rfl
  · have hd1 : segDuration ⟨"A", "00:00:01.000", some "00:00:04.000"⟩ = 4 := by
      show decValQ (0, 0) * 3600 + decValQ (0, 0) * 60 + decValQ (4000, 3) = 4
      unfold decValQ
      norm_num
    have hd2 : segDuration ⟨"A", "00:00:05.000", some "00:00:10.000"⟩ = 10 := by
      show decValQ (0, 0) * 3600 + decValQ (0, 0) * 60 + decValQ (10000, 3) = 10
      unfold decValQ
      norm_num
    unfold _find_best_segments
    rw [List.foldl_cons, List.foldl_cons, List.foldl_nil]
    have h1 : updatePick [] ⟨"A", "00:00:01.000", some "00:00:04.000"⟩ =
        [("A", "00:00:01.000", (4 : ℚ))] := by
      simp only [updatePick, List.find?_nil]
      rw [hd1]
      rfl
    rw [h1]
    have h2 : updatePick [("A", "00:00:01.000", (4 : ℚ))]
        ⟨"A", "00:00:05.000", some "00:00:10.000"⟩ =
        [("A", "00:00:05.000", (10 : ℚ))] := by
      simp only [updatePick]
      rw [show List.find?
          (fun x => x.1 == TSegment.speaker ⟨"A", "00:00:05.000", some "00:00:10.000"⟩)
          [("A", "00:00:01.000", (4 : ℚ))] = some ("A", "00:00:01.000", (4 : ℚ)) from rfl]
      rw [hd2]
      norm_num
    rw [h2]
    rfl

/-- C8 (witness): the 4s/10s example resolves to the 10s segment's start
time through the public lookup, and a duration without the HH:MM:SS shape
parses to zero. -/
theorem best_segments_spec_witness :
    lookupPick "A" (_find_best_segments
      [⟨"A", "00:00:01.000", some "00:00:04.000"⟩,
       ⟨"A", "00:00:05.000", some "00:00:10.000"⟩]) = some "00:00:05.000" ∧
    _parse_duration "oops" = 0 := by
  have h := best_segments_spec
    [⟨"A", "00:00:01.000", some "00:00:04.000"⟩,
     ⟨"A", "00:00:05.000", some "00:00:10.000"⟩] "A"
  constructor
  · rw [h.2.2.2.2]
    rfl
  · exact h.2.2.1 "oops" (by decide)

/-- C3 (counterexample): a line whose timestamp field is unparsable is not
dropped: format_output keeps it with the timestamp coerced to 0; and
format_output is not raise-free: a timestamp parsing to infinity makes it
raise an uncaught OverflowError. -/
theorem malformed_timestamp_kept_cex :
    textFormatOutputE .ms (String.mk "abc;Bob;hi".data) =
      .ok (String.mk "0.0;Bob;hi".data) ∧
    textFormatOutputE .ms (String.mk "inf;Bob;hi".data) = .error () := by
  constructor
  · decide
  · decide

/-- C3 (amended): in the fallible embedding of format_output, a line with
fewer than 2 delimiters is dropped without raising by both formatters (it
contributes no output line or entry); a line with at least 2 delimiters
whose timestamp float() rejects (or parses to nan) is kept, with
_parse_time coercing the timestamp to 0 (rendered 0.0); but a timestamp
parsing to an infinity raises an OverflowError that no except clause
catches, so format_output itself raises. -/
theorem format_output_malformed_policy (u : TimeUnit) :
    (∀ line : List Char, (pySplit2L ';' line).length ≠ 3 →
      textLineE u line = .ok none) ∧
    (∀ line : List Char, (pySplit2L '|' line).length ≠ 3 →
      jsonEntryE u line = .ok none) ∧
    (∀ (line t sp tr : List Char),
      (pySplit2L ';' line).map pyStripL = [t, sp, tr] → pyStripL line ≠ [] →
      (parseFloatFull t = none ∨ parseFloatFull t = some PyFloat.nan) →
      textLineE u line = .ok (some (renderTime u 0 ++ ';' :: sp ++ ';' :: tr))) ∧
    (∀ (line t sp tr : List Char) (b : Bool),
      (pySplit2L ';' line).map pyStripL = [t, sp, tr] → pyStripL line ≠ [] →
      parseFloatFull t = some (PyFloat.inf b) → textLineE u line = .error ()) ∧
    renderTime u 0 = "0.0".data ∧
    textFormatOutputE u (String.mk "inf;Bob;hi".data) = .error () := by
  refine ⟨?_, ?_, ?_, ?_, ?_, ?_⟩
  · intro line h
    unfold textLineE
    split
    · rfl
    · split
      · next t sp tr heq =>
        exact absurd (by
          have := congrArg List.length heq
          simpa using this) h
      · rfl
  · intro line h
    unfold jsonEntryE
    split
    · rfl
    · split
      · next t sp tr heq =>
        exact absurd (by
          have := congrArg List.length heq
          simpa using this) h
      · rfl
  · intro line t sp tr hmap hstrip hpf
    have hok : _parse_timeE u t = .ok 0 := by
      unfold _parse_timeE
      rcases hpf with h | h <;> rw [h]
    unfold textLineE
    rw [if_neg hstrip, hmap]
    show (match _parse_timeE u t with
      | .error e => Except.error e
      | .ok ms => Except.ok (some (renderTime u ms ++ ';' :: sp ++ ';' :: tr))) = _
    rw [hok]
  · intro line t sp tr b hmap hstrip hpf
    have herr : _parse_timeE u t = .error () := by
      unfold _parse_timeE
      rw [hpf]
    unfold textLineE
    rw [if_neg hstrip, hmap]
    show (match _parse_timeE u t with
      | .error e => Except.error e
      | .ok ms => Except.ok (some (renderTime u ms ++ ';' :: sp ++ ';' :: tr))) = _
    rw [herr]
  · cases u <;> decide
  · cases u <;> decide

/-- C3 (witness): instances of the drop, keep-with-0 and raise policies at
the ms unit. -/
theorem format_output_malformed_policy_witness :
    textLineE .ms "Bob: hello".data = .ok none ∧
    jsonEntryE .ms "just one field".data = .ok none ∧
    textLineE .ms "abc;Bob;hi".data = .ok (some "0.0;Bob;hi".data) ∧
    textLineE .ms "nan;Bob;hi".data = .ok (some "0.0;Bob;hi".data) ∧
    textLineE .ms "inf;Bob;hi".data = .error () := by
  have h := format_output_malformed_policy .ms
  refine ⟨h.1 _ (by decide), h.2.1 _ (by decide), ?_, ?_, ?_⟩
  · rw [h.2.2.1 "abc;Bob;hi".data "abc".data "Bob".data "hi".data
      (by decide) (by decide) (Or.inl (by decide))]
    rw [h.2.2.2.2.1]
    decide
  · rw [h.2.2.1 "nan;Bob;hi".data "nan".data "Bob".data "hi".data
      (by decide) (by decide) (Or.inr (by decide))]
    rw [h.2.2.2.2.1]
    decide
  · exact h.2.2.2.1 "inf;Bob;hi".data "inf".data "Bob".data "hi".data false
      (by decide) (by decide) (by decide)


/-- The element surviving at the head of a dropWhile fails the predicate. -/
theorem dropWhile_head_false {p : Char → Bool} :
    ∀ (l : List Char) (c : Char) (t : List Char), l.dropWhile p = c :: t → p c = false := by
  intro l
  induction l with
  | nil => intro c t hd; cases hd
  | cons a as ih =>
    intro c t hd
    by_cases hpa : p a = true
    · rw [List.dropWhile_cons_of_pos hpa] at hd
      exact ih c t hd
    · rw [List.dropWhile_cons_of_neg hpa] at hd
      cases hd
      exact Bool.eq_false_iff.mpr hpa

/-- dropWhile is the identity on a list whose head fails the predicate. -/
theorem dropWhile_eq_self_head {p : Char → Bool} (c : Char) (t : List Char)
    (h : p c = false) : (c :: t).dropWhile p = c :: t :=
  List.dropWhile_cons_of_neg (by simp [h])

/-- dropWhile is the identity when no element satisfies the predicate. -/
theorem dropWhile_eq_self_all {p : Char → Bool} :
    ∀ l : List Char, (∀ c ∈ l, p c = false) → l.dropWhile p = l := by
  intro l h
  cases l with
  | nil => rfl
  | cons c t => exact dropWhile_eq_self_head c t (h c (List.mem_cons_self c t))

/-- Stripping keeps only characters of the original string. -/
theorem pyStripL_subset (l : List Char) : ∀ c ∈ pyStripL l, c ∈ l := by
  intro c hc
  unfold pyStripL at hc
  rw [List.mem_reverse] at hc
  have h1 := ((List.dropWhile_suffix pyIsSpace).sublist.subset) hc
  rw [List.mem_reverse] at h1
  exact ((List.dropWhile_suffix pyIsSpace).sublist.subset) h1

/-- Stripping a whitespace-free list is the identity. -/
theorem pyStripL_all (l : List Char) (h : ∀ c ∈ l, pyIsSpace c = false) :
    pyStripL l = l := by
  unfold pyStripL
  rw [dropWhile_eq_self_all l h]
  rw [dropWhile_eq_self_all l.reverse (fun c hc => h c (List.mem_reverse.mp hc))]
  exact List.reverse_reverse l

/-- Stripping is idempotent. -/
theorem pyStripL_idem (l : List Char) : pyStripL (pyStripL l) = pyStripL l := by
  unfold pyStripL
  set A := l.dropWhile pyIsSpace with hA
  set B := A.reverse.dropWhile pyIsSpace with hB
  have h1 : B.reverse.dropWhile pyIsSpace = B.reverse := by
    cases hBr : B.reverse with
    | nil => rfl
    | cons c t =>
      have hpre : B.reverse <+: A := by
        rw [← List.reverse_suffix]
        rw [List.reverse_reverse]
        rw [hB]
        exact List.dropWhile_suffix pyIsSpace
      obtain ⟨s, hs⟩ := hpre
      rw [hBr] at hs
      have hch : l.dropWhile pyIsSpace = c :: (t ++ s) := by
        rw [← hA, ← hs]
        rfl
      exact dropWhile_eq_self_head c t (dropWhile_head_false l c (t ++ s) hch)
  rw [h1, List.reverse_reverse]
  have h2 : B.dropWhile pyIsSpace = B := by
    cases hBc : B with
    | nil => rfl
    | cons c t =>
      exact dropWhile_eq_self_head c t
        (dropWhile_head_false A.reverse c t (hB.symm.trans hBc))
  rw [h2]

/-- A list headed by a non-whitespace character does not strip to empty. -/
theorem pyStripL_ne_nil (c : Char) (t : List Char) (h : pyIsSpace c = false) :
    pyStripL (c :: t) ≠ [] := by
  unfold pyStripL
  rw [dropWhile_eq_self_head c t h]
  intro hc
  rw [List.reverse_eq_nil_iff, List.dropWhile_eq_nil_iff] at hc
  have := hc c (List.mem_reverse.mpr (List.mem_cons_self c t))
  rw [h] at this
  cases this

/-- splitOnce finds nothing in a separator-free list. -/
theorem splitOnceL_none (sep : Char) :
    ∀ l : List Char, sep ∉ l → splitOnceL sep l = none := by
  intro l
  induction l with
  | nil => intro _; rfl
  | cons c cs ih =>
    intro h
    unfold splitOnceL
    rw [if_neg (fun hc => h (List.mem_cons.mpr (Or.inl hc.symm)))]
    rw [ih (fun hm => h (List.mem_cons_of_mem c hm))]
    rfl

/-- splitOnce on an explicit first separator occurrence. -/
theorem splitOnceL_append (sep : Char) :
    ∀ (a r : List Char), sep ∉ a → splitOnceL sep (a ++ sep :: r) = some (a, r) := by
  intro a
  induction a with
  | nil =>
    intro r _
    show splitOnceL sep (sep :: r) = some ([], r)
    unfold splitOnceL
    rw [if_pos rfl]
  | cons c cs ih =>
    intro r h
    show splitOnceL sep (c :: (cs ++ sep :: r)) = _
    unfold splitOnceL
    rw [if_neg (fun hc => h (List.mem_cons.mpr (Or.inl hc.symm)))]
    rw [ih r (fun hm => h (List.mem_cons_of_mem c hm))]
    rfl

/-- Inversion of a successful splitOnce: the first component is
separator-free and the parts reassemble the input. -/
theorem splitOnceL_some (sep : Char) :
    ∀ (l a r : List Char), splitOnceL sep l = some (a, r) →
      sep ∉ a ∧ l = a ++ sep :: r := by
  intro l
  induction l with
  | nil => intro a r h; cases h
  | cons c cs ih =>
    intro a r h
    unfold splitOnceL at h
    by_cases hc : c = sep
    · rw [if_pos hc] at h
      cases h
      exact ⟨List.not_mem_nil sep, by rw [hc]; rfl⟩
    · rw [if_neg hc] at h
      cases hrec : splitOnceL sep cs with
      | none => rw [hrec] at h; cases h
      | some p =>
        rw [hrec] at h
        cases h
        obtain ⟨h1, h2⟩ := ih p.1 p.2 hrec
        constructor
        · intro hm
          rcases List.mem_cons.mp hm with rfl | hm2
          · exact hc rfl
          · exact h1 hm2
        · rw [List.cons_append, ← h2]

/-- Equation: split(sep, 2) with no separator present. -/
theorem pySplit2L_eq_none (sep : Char) (s : List Char)
    (h : splitOnceL sep s = none) : pySplit2L sep s = [s] := by
  unfold pySplit2L
  rw [h]

/-- Equation: split(sep, 2) after the first separator is found. -/
theorem pySplit2L_eq_some (sep : Char) (s a rest : List Char)
    (h : splitOnceL sep s = some (a, rest)) :
    pySplit2L sep s = split2Rest sep a rest := by
  unfold pySplit2L
  rw [h]

/-- Equation: the second stage with no further separator. -/
theorem split2Rest_eq_none (sep : Char) (a rest : List Char)
    (h : splitOnceL sep rest = none) : split2Rest sep a rest = [a, rest] := by
  unfold split2Rest
  rw [h]

/-- Equation: the second stage with a further separator. -/
theorem split2Rest_eq_some (sep : Char) (a rest b rest2 : List Char)
    (h : splitOnceL sep rest = some (b, rest2)) :
    split2Rest sep a rest = [a, b, rest2] := by
  unfold split2Rest
  rw [h]

/-- split(";", 2) on a line assembled from three separator-free-enough
fields recovers exactly those fields. -/
theorem pySplit2L_append (sep : Char) (a b c : List Char)
    (ha : sep ∉ a) (hb : sep ∉ b) :
    pySplit2L sep (a ++ sep :: b ++ sep :: c) = [a, b, c] := by
  rw [show a ++ sep :: b ++ sep :: c = a ++ sep :: (b ++ sep :: c) from by simp]
  rw [pySplit2L_eq_some sep _ a (b ++ sep :: c) (splitOnceL_append sep a (b ++ sep :: c) ha)]
  rw [split2Rest_eq_some sep a _ b c (splitOnceL_append sep b c hb)]

/-- Inversion of a 3-field split: first two fields are separator-free and
the parts reassemble the line. -/
theorem pySplit2L_three (sep : Char) (l a b c : List Char)
    (h : pySplit2L sep l = [a, b, c]) :
    sep ∉ a ∧ sep ∉ b ∧ l = a ++ sep :: b ++ sep :: c := by
  cases h1 : splitOnceL sep l with
  | none =>
    rw [pySplit2L_eq_none sep l h1] at h
    cases h
  | some p =>
    obtain ⟨pa, pr⟩ := p
    rw [pySplit2L_eq_some sep l pa pr h1] at h
    cases h2 : splitOnceL sep pr with
    | none =>
      rw [split2Rest_eq_none sep pa pr h2] at h
      injection h with e1 h
      injection h with e2 h
      cases h
    | some q =>
      obtain ⟨qb, qr⟩ := q
      rw [split2Rest_eq_some sep pa pr qb qr h2] at h
      injection h with e1 h
      injection h with e2 h
      injection h with e3 _
      obtain ⟨ha, hl⟩ := splitOnceL_some sep l pa pr h1
      obtain ⟨hb2, hr⟩ := splitOnceL_some sep pr qb qr h2
      subst e1
      subst e2
      subst e3
      refine ⟨ha, hb2, ?_⟩
      rw [hl, hr]
      simp

/-- Every piece of a full split is separator-free. -/
theorem splitAllL_no_sep (sep : Char) :
    ∀ (s : List Char), ∀ l ∈ splitAllL sep s, sep ∉ l := by
  intro s
  induction s with
  | nil =>
    intro l hl
    rw [show splitAllL sep [] = [[]] from rfl] at hl
    rw [List.mem_singleton.mp hl]
    exact List.not_mem_nil sep
  | cons c cs ih =>
    intro l hl
    unfold splitAllL at hl
    by_cases hc : c = sep
    · rw [if_pos hc] at hl
      rcases List.mem_cons.mp hl with rfl | hl2
      · exact List.not_mem_nil sep
      · exact ih l hl2
    · rw [if_neg hc] at hl
      cases hrec : splitAllL sep cs with
      | nil => rw [hrec] at hl; simp at hl; rw [hl]; simpa using fun h => hc h.symm
      | cons hh tt =>
        rw [hrec] at hl
        rcases List.mem_cons.mp hl with rfl | hl2
        · intro hm
          rcases List.mem_cons.mp hm with hcc | hm2
          · exact hc hcc.symm
          · exact ih hh (hrec ▸ List.mem_cons_self hh tt) hm2
        · exact ih l (hrec ▸ List.mem_cons_of_mem hh hl2)

/-- Every character of a split piece comes from the original string. -/
theorem splitAllL_subset (sep : Char) :
    ∀ (s : List Char), ∀ l ∈ splitAllL sep s, ∀ c ∈ l, c ∈ s := by
  intro s
  induction s with
  | nil =>
    intro l hl c hc
    rw [show splitAllL sep [] = [[]] from rfl] at hl
    rw [List.mem_singleton.mp hl] at hc
    cases hc
  | cons a cs ih =>
    intro l hl c hc
    unfold splitAllL at hl
    by_cases ha : a = sep
    · rw [if_pos ha] at hl
      rcases List.mem_cons.mp hl with rfl | hl2
      · cases hc
      · exact List.mem_cons_of_mem a (ih l hl2 c hc)
    · rw [if_neg ha] at hl
      cases hrec : splitAllL sep cs with
      | nil =>
        rw [hrec] at hl
        simp at hl
        rw [hl] at hc
        rcases List.mem_cons.mp hc with rfl | hc2
        · exact List.mem_cons_self c cs
        · cases hc2
      | cons hh tt =>
        rw [hrec] at hl
        rcases List.mem_cons.mp hl with rfl | hl2
        · rcases List.mem_cons.mp hc with rfl | hc2
          · exact List.mem_cons_self c cs
          · exact List.mem_cons_of_mem a
              (ih hh (hrec ▸ List.mem_cons_self hh tt) c hc2)
        · exact List.mem_cons_of_mem a (ih l (hrec ▸ List.mem_cons_of_mem hh hl2) c hc)

/-- A separator-free string splits to itself. -/
theorem splitAllL_single (sep : Char) :
    ∀ a : List Char, sep ∉ a → splitAllL sep a = [a] := by
  intro a
  induction a with
  | nil => intro _; rfl
  | cons c cs ih =>
    intro h
    unfold splitAllL
    rw [if_neg (fun hc => h (List.mem_cons.mpr (Or.inl hc.symm)))]
    rw [ih (fun hm => h (List.mem_cons_of_mem c hm))]

/-- Full split peels off an explicit first separator occurrence. -/
theorem splitAllL_append (sep : Char) :
    ∀ (a r : List Char), sep ∉ a →
      splitAllL sep (a ++ sep :: r) = a :: splitAllL sep r := by
  intro a
  induction a with
  | nil =>
    intro r _
    show splitAllL sep (sep :: r) = [] :: splitAllL sep r
    conv_lhs => unfold splitAllL
    rw [if_pos rfl]
  | cons c cs ih =>
    intro r h
    show splitAllL sep (c :: (cs ++ sep :: r)) = (c :: cs) :: splitAllL sep r
    conv_lhs => unfold splitAllL
    rw [if_neg (fun hc => h (List.mem_cons.mpr (Or.inl hc.symm)))]
    rw [ih r (fun hm => h (List.mem_cons_of_mem c hm))]

/-- Lines produced by splitlines are pieces of the full split. -/
theorem pySplitlines_mem (s : List Char) :
    ∀ l ∈ pySplitlinesL s, l ∈ splitAllL '\n' s := by
  intro l hl
  unfold pySplitlinesL at hl
  split at hl
  · cases hl
  · split at hl
    · exact (List.dropLast_sublist _).subset hl
    · exact hl

/-- A join of nonempty lines is nonempty. -/
theorem joinNL_ne_nil :
    ∀ outs : List (List Char), outs ≠ [] → (∀ o ∈ outs, o ≠ []) →
      joinNL outs ≠ [] := by
  intro outs
  induction outs with
  | nil => intro h _; exact absurd rfl h
  | cons o os ih =>
    intro _ h1
    cases os with
    | nil =>
      show o ≠ []
      exact h1 o (List.mem_cons_self o [])
    | cons o2 t =>
      show o ++ '\n' :: joinNL (o2 :: t) ≠ []
      simp

/-- The last element reported by getLast? is a member. -/
theorem getLast?_mem_own : ∀ (l : List Char) (a : Char), l.getLast? = some a → a ∈ l := by
  intro l
  induction l with
  | nil => intro a h; cases h
  | cons c t ih =>
    intro a h
    cases t with
    | nil =>
      have h' : some c = some a := h
      injection h' with e
      rw [← e]
      exact List.mem_cons_self c []
    | cons d t2 =>
      rw [List.getLast?_cons_cons] at h
      exact List.mem_cons_of_mem c (ih a h)

/-- The join of newline-free nonempty lines does not end in a newline. -/
theorem joinNL_getLast_ne :
    ∀ outs : List (List Char), (∀ o ∈ outs, o ≠ []) → (∀ o ∈ outs, '\n' ∉ o) →
      ∀ c, (joinNL outs).getLast? = some c → c ≠ '\n' := by
  intro outs
  induction outs with
  | nil => intro _ _ c hc; cases hc
  | cons o os ih =>
    intro h1 h2 c hc
    cases os with
    | nil =>
      show c ≠ '\n'
      have hco : c ∈ o := getLast?_mem_own o c hc
      exact fun he => (h2 o (List.mem_cons_self o [])) (he ▸ hco)
    | cons o2 t =>
      rw [show joinNL (o :: o2 :: t) = o ++ '\n' :: joinNL (o2 :: t) from rfl] at hc
      rw [List.getLast?_append] at hc
      have hjn : joinNL (o2 :: t) ≠ [] :=
        joinNL_ne_nil (o2 :: t) (by simp)
          (fun x hx => h1 x (List.mem_cons_of_mem o hx))
      obtain ⟨j, js, hjs⟩ : ∃ j js, joinNL (o2 :: t) = j :: js := by
        cases hcase : joinNL (o2 :: t) with
        | nil => exact absurd hcase hjn
        | cons j js => exact ⟨j, js, rfl⟩
      rw [hjs, List.getLast?_cons_cons] at hc
      obtain ⟨d, hd⟩ : ∃ d, (j :: js).getLast? = some d := by
        cases hgl : (j :: js).getLast? with
        | none =>
          simp at hgl
        | some d => exact ⟨d, rfl⟩
      rw [hd] at hc
      have hdc : some d = some c := hc
      injection hdc with e
      subst e
      exact ih (fun x hx => h1 x (List.mem_cons_of_mem o hx))
        (fun x hx => h2 x (List.mem_cons_of_mem o hx)) d (by rw [hjs]; exact hd)

/-- Splitting the join of newline-free lines recovers the lines. -/
theorem splitAll_joinNL :
    ∀ outs : List (List Char), outs ≠ [] → (∀ o ∈ outs, '\n' ∉ o) →
      splitAllL '\n' (joinNL outs) = outs := by
  intro outs
  induction outs with
  | nil => intro h _; exact absurd rfl h
  | cons o os ih =>
    intro _ h2
    cases os with
    | nil =>
      show splitAllL '\n' o = [o]
      exact splitAllL_single '\n' o (h2 o (List.mem_cons_self o []))
    | cons o2 t =>
      show splitAllL '\n' (o ++ '\n' :: joinNL (o2 :: t)) = _
      rw [splitAllL_append '\n' o (joinNL (o2 :: t)) (h2 o (List.mem_cons_self o _))]
      rw [ih (by simp) (fun x hx => h2 x (List.mem_cons_of_mem o hx))]

/-- splitlines inverts the join of nonempty newline-free lines. -/
theorem pySplitlines_joinNL (outs : List (List Char)) (h0 : outs ≠ [])
    (h1 : ∀ o ∈ outs, o ≠ []) (h2 : ∀ o ∈ outs, '\n' ∉ o) :
    pySplitlinesL (joinNL outs) = outs := by
  unfold pySplitlinesL
  rw [if_neg (joinNL_ne_nil outs h0 h1)]
  have hone : ¬ (joinNL outs).getLast? = some '\n' := by
    intro hc
    exact joinNL_getLast_ne outs h1 h2 '\n' hc rfl
  rw [if_neg hone]
  exact splitAll_joinNL outs h0 h2

/-- A filterMap whose function fixes every member is the identity. -/
theorem filterMap_id_of_mem {α : Type} (f : α → Option α) :
    ∀ l : List α, (∀ a ∈ l, f a = some a) → l.filterMap f = l := by
  intro l
  induction l with
  | nil => intro _; rfl
  | cons a t ih =>
    intro h
    rw [List.filterMap_cons, h a (List.mem_cons_self a t),
      ih (fun x hx => h x (List.mem_cons_of_mem a hx))]

/-- Digit characters are digits. -/
theorem digitChar_isDigit (n : ℕ) : (digitChar n).isDigit = true := by
  have hb : ∀ m, m < 10 → (Char.ofNat (48 + m)).isDigit = true := by decide
  exact hb (n % 10) (Nat.mod_lt n (by omega))

/-- Every character of a decimal rendering is a digit. -/
theorem natDigits_all_digit (n : ℕ) : ∀ c ∈ natDigits n, c.isDigit = true := by
  suffices h : ∀ fuel m, ∀ c ∈ natDigitsAux fuel m, c.isDigit = true from h (n + 1) n
  intro fuel
  induction fuel with
  | zero => intro m c hc; cases hc
  | succ f ih =>
    intro m c hc
    unfold natDigitsAux at hc
    by_cases hm : m < 10
    · rw [if_pos hm] at hc
      rw [List.mem_singleton.mp hc]
      exact digitChar_isDigit m
    · rw [if_neg hm] at hc
      rcases List.mem_append.mp hc with h1 | h2
      · exact ih (m / 10) c h1
      · rw [List.mem_singleton.mp h2]
        exact digitChar_isDigit (m % 10)

/-- Decimal renderings are nonempty. -/
theorem natDigits_ne_nil (n : ℕ) : natDigits n ≠ [] := by
  unfold natDigits natDigitsAux
  by_cases hn : n < 10
  · simp [hn]
  · simp [hn]

/-- Appending one digit multiplies the numeric value by ten. -/
theorem digitsVal_append (ds : List Char) (c : Char) :
    digitsVal (ds ++ [c]) = digitsVal ds * 10 + (c.toNat - 48) := by
  unfold digitsVal
  rw [List.foldl_append]
  rfl

/-- The value of a rendered number is the number. -/
theorem digitsVal_natDigits (n : ℕ) : digitsVal (natDigits n) = n := by
  induction n using Nat.strong_induction_on with
  | _ n ih =>
    by_cases hn : n < 10
    · rw [natDigits_small n hn]
      show (0 * 10 + ((digitChar n).toNat - 48)) = n
      have hb : ∀ m, m < 10 → (digitChar m).toNat - 48 = m := by decide
      rw [hb n hn]
      omega
    · rw [natDigits_step n (by omega), digitsVal_append,
        ih (n / 10) (Nat.div_lt_self (by omega) (by omega))]
      have hb : ∀ m, m < 10 → (digitChar m).toNat - 48 = m := by decide
      rw [hb (n % 10) (Nat.mod_lt n (by omega))]
      omega

/-- Digits are not whitespace. -/
theorem isDigit_not_ws (c : Char) (h : c.isDigit = true) : pyIsSpace c = false := by
  by_contra hws
  have hws2 : pyIsSpace c = true := by
    cases hw : pyIsSpace c
    · exact absurd hw hws
    · rfl
  unfold pyIsSpace at hws2
  simp only [Bool.or_eq_true, decide_eq_true_eq] at hws2
  rcases hws2 with (((((rfl | rfl) | rfl) | rfl) | rfl) | rfl) <;> cases h

/-- A digit differs from any non-digit character. -/
theorem isDigit_ne (c : Char) (h : c.isDigit = true) (d : Char)
    (hd : d.isDigit = false) : c ≠ d := by
  intro he
  rw [he, hd] at h
  cases h

/-- takeWhile passes over a fully satisfying prefix. -/
theorem takeWhile_append_all {p : Char → Bool} :
    ∀ (a b : List Char), (∀ c ∈ a, p c = true) →
      (a ++ b).takeWhile p = a ++ b.takeWhile p := by
  intro a
  induction a with
  | nil => intro b _; rfl
  | cons c cs ih =>
    intro b h
    show (c :: (cs ++ b)).takeWhile p = _
    rw [List.takeWhile_cons_of_pos (h c (List.mem_cons_self c cs))]
    rw [ih b (fun x hx => h x (List.mem_cons_of_mem c hx))]
    rfl

/-- dropWhile passes over a fully satisfying prefix. -/
theorem dropWhile_append_all {p : Char → Bool} :
    ∀ (a b : List Char), (∀ c ∈ a, p c = true) →
      (a ++ b).dropWhile p = b.dropWhile p := by
  intro a
  induction a with
  | nil => intro b _; rfl
  | cons c cs ih =>
    intro b h
    show (c :: (cs ++ b)).dropWhile p = _
    rw [List.dropWhile_cons_of_pos (h c (List.mem_cons_self c cs))]
    exact ih b (fun x hx => h x (List.mem_cons_of_mem c hx))

/-- parseSign skips nothing on an unsigned numeral. -/
theorem parseSign_not_sign (c : Char) (t : List Char)
    (h1 : c ≠ '-') (h2 : c ≠ '+') : parseSign (c :: t) = (1, c :: t) := by
  show (if c = '-' then ((-1 : ℤ), t) else if c = '+' then ((1 : ℤ), t)
    else (1, c :: t)) = (1, c :: t)
  rw [if_neg h1, if_neg h2]

/-- The ms rendering is sign plus digits plus ".0". -/
theorem renderDec_zero (a : ℤ) :
    renderDec a 0 = (if a < 0 then '-' :: (natDigits a.natAbs ++ ".0".data)
      else natDigits a.natAbs ++ ".0".data) := by
  dsimp only [renderDec]
  rw [pow_zero, Nat.div_one, Nat.mod_one]
  rw [show (List.dropWhile (fun x => decide (x = '0'))
    (List.replicate ((0 : ℕ) - (natDigits 0).length) '0'
      ++ natDigits 0).reverse).reverse = ([] : List Char) from rfl]
  rw [if_pos rfl]

/-- float() on an unsigned digit string followed by ".0". -/
theorem parseFloat_digitsDot (ds : List Char) (hne : ds ≠ [])
    (hdig : ∀ c ∈ ds, c.isDigit = true) :
    parseFloatDec (ds ++ ".0".data) = some ((digitsVal (ds ++ ['0']) : ℤ), 1) := by
  have hws : ∀ c ∈ ds ++ ".0".data, pyIsSpace c = false := by
    intro c hc
    rcases List.mem_append.mp hc with h1 | h2
    · exact isDigit_not_ws c (hdig c h1)
    · rcases List.mem_cons.mp h2 with rfl | h3
      · decide
      · rw [List.mem_singleton.mp h3]; decide
  have hstrip : pyStripL (ds ++ ".0".data) = ds ++ ".0".data := pyStripL_all _ hws
  have hsign : parseSign (ds ++ ".0".data) = (1, ds ++ ".0".data) := by
    obtain ⟨c, t, hct⟩ := List.exists_cons_of_ne_nil hne
    have hcd : c.isDigit = true := hdig c (by rw [hct]; exact List.mem_cons_self c t)
    rw [hct, List.cons_append]
    exact parseSign_not_sign c _ (isDigit_ne c hcd '-' (by decide))
      (isDigit_ne c hcd '+' (by decide))
  have htake : (ds ++ ".0".data).takeWhile Char.isDigit = ds := by
    rw [takeWhile_append_all ds _ hdig]
    rw [show (".0".data.takeWhile Char.isDigit) = [] from rfl, List.append_nil]
  have hdrop : (ds ++ ".0".data).dropWhile Char.isDigit = ".0".data :=
    dropWhile_append_all ds _ hdig
  have hfrac : parseFrac ".0".data = (['0'], []) := rfl
  unfold parseFloatDec
  simp only [hstrip, hsign, htake, hdrop, hfrac]
  rw [if_neg (by simp : ¬(ds.length + (['0'] : List Char).length = 0))]
  norm_num

/-- float() on a '-'-signed digit string followed by ".0". -/
theorem parseFloat_negDigitsDot (ds : List Char) (hne : ds ≠ [])
    (hdig : ∀ c ∈ ds, c.isDigit = true) :
    parseFloatDec ('-' :: (ds ++ ".0".data)) =
      some (-(digitsVal (ds ++ ['0']) : ℤ), 1) := by
  have hws : ∀ c ∈ '-' :: (ds ++ ".0".data), pyIsSpace c = false := by
    intro c hc
    rcases List.mem_cons.mp hc with rfl | hc2
    · decide
    · rcases List.mem_append.mp hc2 with h1 | h2
      · exact isDigit_not_ws c (hdig c h1)
      · rcases List.mem_cons.mp h2 with rfl | h3
        · decide
        · rw [List.mem_singleton.mp h3]; decide
  have hstrip : pyStripL ('-' :: (ds ++ ".0".data)) = '-' :: (ds ++ ".0".data) :=
    pyStripL_all _ hws
  have hsign : parseSign ('-' :: (ds ++ ".0".data)) = (-1, ds ++ ".0".data) := rfl
  have htake : (ds ++ ".0".data).takeWhile Char.isDigit = ds := by
    rw [takeWhile_append_all ds _ hdig]
    rw [show (".0".data.takeWhile Char.isDigit) = [] from rfl, List.append_nil]
  have hdrop : (ds ++ ".0".data).dropWhile Char.isDigit = ".0".data :=
    dropWhile_append_all ds _ hdig
  have hfrac : parseFrac ".0".data = (['0'], []) := rfl
  unfold parseFloatDec
  simp only [hstrip, hsign, htake, hdrop, hfrac]
  rw [if_neg (by simp : ¬(ds.length + (['0'] : List Char).length = 0))]
  norm_num

/-- _parse_time of a numeral with one fractional digit is the exact product
truncated by ten. -/
theorem parse_time_of_parse (u : TimeUnit) (s : List Char) (m : ℤ)
    (h : parseFloatDec s = some (m, 1)) :
    _parse_time u s = Int.tdiv (m * (unitFactor u : ℤ)) 10 := by
  unfold _parse_time
  rw [h]
  show (if (1 : ℤ) ≤ 0 then m * (unitFactor u : ℤ) * 10 ^ (-(1 : ℤ)).toNat
    else Int.tdiv (m * (unitFactor u : ℤ)) (10 ^ ((1 : ℤ)).toNat)) = _
  rw [if_neg (by norm_num : ¬((1 : ℤ) ≤ 0))]
  norm_num

/-- The ms formatter's timestamp rendering re-parses to the same integer. -/
theorem parse_render_ms (ms : ℤ) : _parse_time .ms (renderTime .ms ms) = ms := by
  have hval : (digitsVal (natDigits ms.natAbs ++ ['0']) : ℤ) = (ms.natAbs : ℤ) * 10 := by
    rw [digitsVal_append, digitsVal_natDigits]
    norm_num [show '0'.toNat - 48 = 0 from rfl]
  by_cases hneg : ms < 0
  · have hr : renderTime .ms ms = '-' :: (natDigits ms.natAbs ++ ".0".data) := by
      show renderDec ms 0 = _
      rw [renderDec_zero, if_pos hneg]
    have hp := parseFloat_negDigitsDot (natDigits ms.natAbs)
      (natDigits_ne_nil _) (natDigits_all_digit _)
    rw [hr, parse_time_of_parse .ms _ _ hp]
    rw [show ((unitFactor .ms : ℕ) : ℤ) = 1 from rfl, mul_one, hval]
    rw [show -((ms.natAbs : ℤ) * 10) = (-(ms.natAbs : ℤ)) * 10 from by ring]
    rw [Int.mul_tdiv_cancel _ (by norm_num : (10 : ℤ) ≠ 0)]
    omega
  · have hr : renderTime .ms ms = natDigits ms.natAbs ++ ".0".data := by
      show renderDec ms 0 = _
      rw [renderDec_zero, if_neg hneg]
    have hp := parseFloat_digitsDot (natDigits ms.natAbs)
      (natDigits_ne_nil _) (natDigits_all_digit _)
    rw [hr, parse_time_of_parse .ms _ _ hp]
    rw [show ((unitFactor .ms : ℕ) : ℤ) = 1 from rfl, mul_one, hval]
    rw [Int.mul_tdiv_cancel _ (by norm_num : (10 : ℤ) ≠ 0)]
    omega

/-- Characters of split(sep, 2) pieces come from the input line. -/
theorem pySplit2L_subset (sep : Char) (l p : List Char)
    (hp : p ∈ pySplit2L sep l) : ∀ c ∈ p, c ∈ l := by
  cases h1 : splitOnceL sep l with
  | none =>
    rw [pySplit2L_eq_none sep l h1] at hp
    rw [List.mem_singleton.mp hp]
    exact fun c hc => hc
  | some q =>
    obtain ⟨a, rest⟩ := q
    obtain ⟨_, hl⟩ := splitOnceL_some sep l a rest h1
    rw [pySplit2L_eq_some sep l a rest h1] at hp
    cases h2 : splitOnceL sep rest with
    | none =>
      rw [split2Rest_eq_none sep a rest h2] at hp
      intro c hc
      rw [hl]
      rcases List.mem_cons.mp hp with rfl | hp2
      · exact List.mem_append.mpr (Or.inl hc)
      · rw [List.mem_singleton.mp hp2] at hc
        exact List.mem_append.mpr (Or.inr (List.mem_cons_of_mem sep hc))
    | some q2 =>
      obtain ⟨b, rest2⟩ := q2
      obtain ⟨_, hr⟩ := splitOnceL_some sep rest b rest2 h2
      rw [split2Rest_eq_some sep a rest b rest2 h2] at hp
      intro c hc
      rw [hl, hr]
      rcases List.mem_cons.mp hp with rfl | hp2
      · exact List.mem_append.mpr (Or.inl hc)
      · rcases List.mem_cons.mp hp2 with rfl | hp3
        · refine List.mem_append.mpr (Or.inr (List.mem_cons_of_mem sep ?_))
          exact List.mem_append.mpr (Or.inl hc)
        · rw [List.mem_singleton.mp hp3] at hc
          refine List.mem_append.mpr (Or.inr (List.mem_cons_of_mem sep ?_))
          exact List.mem_append.mpr (Or.inr (List.mem_cons_of_mem sep hc))

/-- Inversion of a three-element map image. -/
theorem map_eq_three {α β : Type} (f : α → β) (l : List α) (a b c : β)
    (h : l.map f = [a, b, c]) :
    ∃ x y z, l = [x, y, z] ∧ f x = a ∧ f y = b ∧ f z = c := by
  match l with
  | [x, y, z] =>
    rw [List.map_cons, List.map_cons, List.map_cons, List.map_nil] at h
    injection h with e1 h
    injection h with e2 h
    injection h with e3 _
    exact ⟨x, y, z, rfl, e1, e2, e3⟩
  | [] => cases h
  | [x] => cases h
  | [x, y] =>
    rw [List.map_cons, List.map_cons, List.map_nil] at h
    injection h with e1 h
    injection h with e2 h
    cases h
  | x :: y :: z :: w :: t =>
    simp only [List.map_cons] at h
    injection h with e1 h
    injection h with e2 h
    injection h with e3 h
    cases h

/-- The ms timestamp rendering uses only sign, point and digit characters. -/
theorem renderTime_ms_chars (ms : ℤ) :
    ∀ c ∈ renderTime .ms ms, c = '-' ∨ c = '.' ∨ c.isDigit = true := by
  have hbase : ∀ c ∈ natDigits ms.natAbs ++ ".0".data,
      c = '-' ∨ c = '.' ∨ c.isDigit = true := by
    intro c hc
    rcases List.mem_append.mp hc with h1 | h2
    · exact Or.inr (Or.inr (natDigits_all_digit _ c h1))
    · rcases List.mem_cons.mp h2 with rfl | h3
      · exact Or.inr (Or.inl rfl)
      · rw [List.mem_singleton.mp h3]
        exact Or.inr (Or.inr (by decide))
  intro c hc
  rw [show renderTime .ms ms = renderDec ms 0 from rfl, renderDec_zero] at hc
  split_ifs at hc with h
  · rcases List.mem_cons.mp hc with rfl | hc2
    · exact Or.inl rfl
    · exact hbase c hc2
  · exact hbase c hc

/-- The ms timestamp rendering contains no semicolon. -/
theorem renderTime_ms_no_semi (ms : ℤ) : ';' ∉ renderTime .ms ms := by
  intro hm
  rcases renderTime_ms_chars ms ';' hm with h | h | h <;> cases h

/-- The ms timestamp rendering contains no newline. -/
theorem renderTime_ms_no_nl (ms : ℤ) : '\n' ∉ renderTime .ms ms := by
  intro hm
  rcases renderTime_ms_chars ms '\n' hm with h | h | h <;> cases h

/-- The ms timestamp rendering contains no whitespace. -/
theorem renderTime_ms_no_ws (ms : ℤ) :
    ∀ c ∈ renderTime .ms ms, pyIsSpace c = false := by
  intro c hc
  rcases renderTime_ms_chars ms c hc with rfl | rfl | h
  · decide
  · decide
  · exact isDigit_not_ws c h

/-- The ms timestamp rendering is nonempty. -/
theorem renderTime_ms_ne_nil (ms : ℤ) : renderTime .ms ms ≠ [] := by
  rw [show renderTime .ms ms = renderDec ms 0 from rfl, renderDec_zero]
  have hnd := natDigits_ne_nil ms.natAbs
  split_ifs with h
  · simp
  · simp [hnd]

/-- Inversion of an accepted text-formatter line. -/
theorem textLine_eq_some (u : TimeUnit) (line o : List Char)
    (h : textLine u line = some o) :
    ∃ t sp tr, (pySplit2L ';' line).map pyStripL = [t, sp, tr] ∧
      o = renderTime u (_parse_time u t) ++ ';' :: sp ++ ';' :: tr := by
  unfold textLine at h
  by_cases hs : pyStripL line = []
  · rw [if_pos hs] at h; cases h
  · rw [if_neg hs] at h
    cases hm : (pySplit2L ';' line).map pyStripL with
    | nil => rw [hm] at h; cases h
    | cons t rest =>
      cases rest with
      | nil => rw [hm] at h; cases h
      | cons sp rest2 =>
        cases rest2 with
        | nil => rw [hm] at h; cases h
        | cons tr rest3 =>
          cases rest3 with
          | nil =>
            rw [hm] at h
            exact ⟨t, sp, tr, rfl, (Option.some.inj h).symm⟩
          | cons w rest4 => rw [hm] at h; cases h

/-- A line already in the ms formatter's output shape is reproduced
verbatim by the text formatter's line step. -/
theorem textLine_ms_out (ms : ℤ) (sp tr : List Char)
    (hsp : ';' ∉ sp) (hsps : pyStripL sp = sp) (htrs : pyStripL tr = tr) :
    textLine .ms (renderTime .ms ms ++ ';' :: sp ++ ';' :: tr) =
      some (renderTime .ms ms ++ ';' :: sp ++ ';' :: tr) := by
  obtain ⟨c, t0, hct⟩ := List.exists_cons_of_ne_nil (renderTime_ms_ne_nil ms)
  have hcw : pyIsSpace c = false :=
    renderTime_ms_no_ws ms c (by rw [hct]; exact List.mem_cons_self c t0)
  have hne : pyStripL (renderTime .ms ms ++ ';' :: sp ++ ';' :: tr) ≠ [] := by
    rw [hct, List.cons_append]
    exact pyStripL_ne_nil c _ hcw
  have hsplit : pySplit2L ';' (renderTime .ms ms ++ ';' :: sp ++ ';' :: tr) =
      [renderTime .ms ms, sp, tr] :=
    pySplit2L_append ';' _ sp tr (renderTime_ms_no_semi ms) hsp
  have hstripR : pyStripL (renderTime .ms ms) = renderTime .ms ms :=
    pyStripL_all _ (renderTime_ms_no_ws ms)
  unfold textLine
  rw [if_neg hne, hsplit, List.map_cons, List.map_cons, List.map_cons,
    List.map_nil, hstripR, hsps, htrs]
  show some (renderTime .ms (_parse_time .ms (renderTime .ms ms))
    ++ ';' :: sp ++ ';' :: tr) = _
  rw [parse_render_ms]

/-- An accepted ms line's output is itself accepted verbatim, nonempty and
newline-free. -/
theorem textLine_ms_out_props (line o : List Char) (hnl : '\n' ∉ line)
    (h : textLine .ms line = some o) :
    textLine .ms o = some o ∧ o ≠ [] ∧ '\n' ∉ o := by
  obtain ⟨t, sp, tr, hmap, ho⟩ := textLine_eq_some .ms line o h
  obtain ⟨p1, p2, p3, hps, hf1, hf2, hf3⟩ := map_eq_three pyStripL _ t sp tr hmap
  obtain ⟨hns1, hns2, hre⟩ := pySplit2L_three ';' line p1 p2 p3 hps
  have hp2mem : p2 ∈ pySplit2L ';' line := by rw [hps]; simp
  have hp3mem : p3 ∈ pySplit2L ';' line := by rw [hps]; simp
  have hspsub : ∀ c ∈ sp, c ∈ line := by
    intro c hc
    rw [← hf2] at hc
    exact pySplit2L_subset ';' line p2 hp2mem c (pyStripL_subset p2 c hc)
  have htrsub : ∀ c ∈ tr, c ∈ line := by
    intro c hc
    rw [← hf3] at hc
    exact pySplit2L_subset ';' line p3 hp3mem c (pyStripL_subset p3 c hc)
  have hspsemi : ';' ∉ sp := by
    intro hm
    rw [← hf2] at hm
    exact hns2 (pyStripL_subset p2 ';' hm)
  have hsps : pyStripL sp = sp := by rw [← hf2, pyStripL_idem]
  have htrs : pyStripL tr = tr := by rw [← hf3, pyStripL_idem]
  refine ⟨?_, ?_, ?_⟩
  · rw [ho]
    exact textLine_ms_out (_parse_time .ms t) sp tr hspsemi hsps htrs
  · rw [ho]
    simp
  · rw [ho]
    intro hm
    rcases List.mem_append.mp hm with h1 | h2
    · rcases List.mem_append.mp h1 with h3 | h4
      · exact renderTime_ms_no_nl _ h3
      · rcases List.mem_cons.mp h4 with he | h5
        · cases he
        · exact hnl (hspsub '\n' h5)
    · rcases List.mem_cons.mp h2 with he | h6
      · cases he
      · exact hnl (htrsub '\n' h6)

/-- C5 counterexample: the JSON formatter's round trip is not idempotent.
Its output is a JSON document, not a pipe-delimited reply, so re-running
format_output on its own output yields the empty-segments document instead
of the same output. -/
theorem format_output_json_not_idempotent :
    jsonFormatOutput .ms (jsonFormatOutput .ms (String.mk "1500 | Bob | hi".data)) ≠
      jsonFormatOutput .ms (String.mk "1500 | Bob | hi".data) := by decide

/-- C5 (amended): the text formatter's parse/format round trip in the ms
unit is idempotent on every input: a second application of format_output
to its own output reproduces the output verbatim.  The JSON formatter is
not idempotent: on any pipe-free text (in particular on its own JSON
output, which is only re-parseable as pipe-free lines) format_output
collapses to the empty-segments document. -/
theorem format_output_idempotence :
    (∀ x : String,
      textFormatOutput .ms (textFormatOutput .ms x) = textFormatOutput .ms x) ∧
    (∀ (u : TimeUnit) (text : String), (∀ c ∈ text.data, c ≠ '|') →
      jsonFormatOutput u text = String.mk (jsonDump u [])) := by
  constructor
  · intro x
    have hprops : ∀ o2 ∈ (pySplitlinesL x.data).filterMap (textLine .ms),
        textLine .ms o2 = some o2 ∧ o2 ≠ [] ∧ '\n' ∉ o2 := by
      intro o2 ho2
      obtain ⟨line, hline, hsome⟩ := List.mem_filterMap.mp ho2
      have hnl : '\n' ∉ line :=
        splitAllL_no_sep '\n' x.data line (pySplitlines_mem x.data line hline)
      exact textLine_ms_out_props line o2 hnl hsome
    unfold textFormatOutput
    rw [show ∀ l : List Char, (String.mk l).data = l from fun _ => rfl]
    generalize hG : (pySplitlinesL x.data).filterMap (textLine .ms) = outs
    rw [hG] at hprops
    cases houtsnil : outs with
    | nil => rfl
    | cons o os =>
      rw [← houtsnil]
      rw [pySplitlines_joinNL outs (by rw [houtsnil]; simp)
        (fun o2 h2 => (hprops o2 h2).2.1) (fun o2 h2 => (hprops o2 h2).2.2)]
      rw [filterMap_id_of_mem (textLine .ms) outs (fun o2 h2 => (hprops o2 h2).1)]
  · intro u text hpipe
    have hnone : ∀ line ∈ pySplitlinesL text.data, jsonEntry u line = none := by
      intro line hline
      have hsub : ∀ c ∈ line, c ∈ text.data :=
        splitAllL_subset '\n' text.data line (pySplitlines_mem text.data line hline)
      have hnp : '|' ∉ line := fun hm => hpipe '|' (hsub '|' hm) rfl
      unfold jsonEntry
      by_cases hs : pyStripL line = []
      · rw [if_pos hs]
      · rw [if_neg hs, pySplit2L_eq_none '|' line (splitOnceL_none '|' line hnp)]
        rfl
    unfold jsonFormatOutput jsonEntries
    rw [List.filterMap_eq_nil_iff.mpr hnone]

/-- C5 witness: idempotence of the text formatter on a well-formed line and
the JSON collapse on a pipe-free input, both at concrete strings. -/
theorem format_output_idempotence_witness :
    textFormatOutput .ms (textFormatOutput .ms (String.mk "1500;Bob;hi".data)) =
      textFormatOutput .ms (String.mk "1500;Bob;hi".data) ∧
    jsonFormatOutput .ms (String.mk "hello".data) = String.mk (jsonDump .ms []) :=
  ⟨format_output_idempotence.1 _,
    format_output_idempotence.2 .ms _ (by decide)⟩
